import Mathlib

/-!
Verification development for the symbolic geometric-algebra core of the
Hyperspeedcube repository: the blade canonicalizer and symbolic multivector
engine of src/concept/cga.py, and the blade-multiplication code generator of
src/gen_dodeca.py.  Python strings of axis symbols are embedded as `List Char`,
Python dicts as association lists with distinct keys (Python dicts preserve
insertion order and never hold two equal keys), and numeric coefficients as
rationals (the source mixes exact ints with dyadic float literals such as 0.5).
-/

set_option autoImplicit false

/-- Fixed axis alphabet of the symbolic engine (`AXES = '-+xyz'` in cga.py). -/
def AXES : List Char := ['-', '+', 'x', 'y', 'z']

/-- Position of a character in `AXES` (index used for the fixed total order). -/
def idxA (c : Char) : Nat := AXES.indexOf c

/-- One run of the `while c in axes` loop body of `canonicalize` (cga.py lines
36-39): add the index of the first occurrence of `c` to the swap counter,
remove that occurrence, and count one more copy of `c` pulled to the output.
The loop removes one character per iteration, so fuel `axes.length` suffices. -/
def pullLoop (c : Char) : Nat → List Char → List Char × Nat × Nat
  | 0, l => (l, 0, 0)
  | fuel + 1, l =>
    if c ∈ l then
      let i := l.indexOf c
      let l2 := l.erase c
      let (l3, s, k) := pullLoop c fuel l2
      (l3, i + s, k + 1)
    else
      (l, 0, 0)

/-- The `for c in AXES` sorting pass of `canonicalize` (cga.py lines 35-39),
threading the output string (as per-axis runs), the swap counter and the
remaining input. -/
def pullPhase : List Char → List Char → List Char × Nat × List Char
  | [], rem => ([], 0, rem)
  | c :: cs, rem =>
    let (rem2, s, k) := pullLoop c rem.length rem
    let (retRest, sRest, remFin) := pullPhase cs rem2
    (List.replicate k c ++ retRest, s + sRest, remFin)

/-- Number of non-overlapping occurrences of the two-character pattern `cc`,
matching Python `ret.count(c+c)` for a pattern of two equal characters. -/
def countSub2 (c : Char) : List Char → Nat
  | c1 :: c2 :: rest =>
    if c1 = c ∧ c2 = c then 1 + countSub2 c rest
    else countSub2 c (c2 :: rest)
  | _ => 0

/-- Single left-to-right pass removing non-overlapping occurrences of `cc`,
matching Python `ret.replace(c+c, '')` for a pattern of two equal characters. -/
def removePairs (c : Char) : List Char → List Char
  | c1 :: c2 :: rest =>
    if c1 = c ∧ c2 = c then removePairs c rest
    else c1 :: removePairs c (c2 :: rest)
  | l => l

/-- The `for c in AXES: ret = ret.replace(c+c, '')` loop of cga.py lines 41-42. -/
def removeAll : List Char → List Char → List Char
  | [], l => l
  | c :: cs, l => removeAll cs (removePairs c l)

/-- Blade canonicalizer of the symbolic engine (cga.py lines 31-44): sort the
axis sequence into the fixed `AXES` order counting transpositions, add one swap
per adjacent pair of the negative-square axis, remove adjacent duplicate pairs,
and return the canonical label with the accumulated sign. -/
def canonicalize (axes : List Char) : List Char × Int :=
  let (ret0, swaps0, _) := pullPhase AXES axes
  let swaps := swaps0 + countSub2 '-' ret0
  let ret := removeAll AXES ret0
  (ret, if swaps % 2 = 1 then -1 else 1)

/-! ## Blade-multiplication generator (gen_dodeca.py) -/

/-- Spatial dimension count of the generator (`NDIM = 3`). -/
def NDIM : Nat := 3

/-- Axis alphabet of the generator (`AXES = "mpxyzwuv"`): `m` and `p` carry the
non-Euclidean metric (`m` squares to -1). -/
def GAXES : List Char := ['m', 'p', 'x', 'y', 'z', 'w', 'u', 'v']

/-- Whether the list ends with two copies of `c` (Python `ret.endswith(ax+ax)`). -/
def endsPair (c : Char) (l : List Char) : Bool :=
  match l.reverse with
  | c1 :: c2 :: _ => c1 = c ∧ c2 = c
  | _ => false

/-- Defensive failure of `multiply_axes` (`raise Exception(f'bad axes: ...')`),
named `MalformedBlade` in the specification's error taxonomy. -/
inductive GenError where
  | malformedBlade
  deriving DecidableEq

/-- Loop body of `multiply_axes` (gen_dodeca.py lines 57-76) over the axis
alphabet, threading the output label, the two remaining inputs and the sign. -/
def multiplyAxesGo : List Char → List Char → List Char → List Char → Int →
    Except GenError (List Char × Int)
  | [], ret, a, b, sign =>
    if a.isEmpty && b.isEmpty then .ok (ret, sign) else .error .malformedBlade
  | ax :: axs, ret, a, b, sign =>
    if a.isEmpty || b.isEmpty then .ok (ret ++ a ++ b, sign)
    else
      let (ret1, a1) := if a.head? = some ax then (ret ++ [ax], a.tail) else (ret, a)
      let (ret2, b1, sign1) :=
        if b.head? = some ax then (ret1 ++ [ax], b.tail, sign * (-1) ^ a1.length)
        else (ret1, b, sign)
      let (ret3, sign2) :=
        if endsPair ax ret2 then
          (ret2.dropLast.dropLast, if ax = 'm' then -sign1 else sign1)
        else (ret2, sign1)
      multiplyAxesGo axs ret3 a1 b1 sign2

/-- Generator-side blade product `multiply_axes(a, b)` (gen_dodeca.py 57-76). -/
def multiply_axes (a b : List Char) : Except GenError (List Char × Int) :=
  multiplyAxesGo GAXES [] a b 1

/-- Combinations of `r` elements of a list in the order emitted by Python
`itertools.combinations` (positions lexicographic). -/
def combinations : Nat → List Char → List (List Char)
  | 0, _ => [[]]
  | _ + 1, [] => []
  | r + 1, c :: cs => (combinations r cs).map (c :: ·) ++ combinations (r + 1) cs

/-- Basis blades of one grade in the generator (`components` in gen_dodeca.py):
all `grade`-element combinations of the first `NDIM+2` axes. -/
def components (grade : Nat) : List (List Char) :=
  combinations grade (GAXES.take (NDIM + 2))

/-- Translation from generator axis names to symbolic-engine axis names
(`m` is the negative-square axis `-`, `p` is `+`; `x y z` coincide). -/
def toCga (c : Char) : Char :=
  if c = 'm' then '-' else if c = 'p' then '+' else c

/-- Translation from symbolic-engine axis names back to generator names. -/
def toGen (c : Char) : Char :=
  if c = '-' then 'm' else if c = '+' then 'p' else c

instance {ε α : Type} [DecidableEq ε] [DecidableEq α] : DecidableEq (Except ε α) :=
  fun x y =>
    match x, y with
    | .ok a, .ok b => decidable_of_iff (a = b) (by simp)
    | .error e, .error f => decidable_of_iff (e = f) (by simp)
    | .ok _, .error _ => isFalse (by simp)
    | .error _, .ok _ => isFalse (by simp)

/-- Normal return of `multiply_axes` with a sign of exactly plus or minus one
(the success shape claimed for canonical inputs). -/
def okSignPM (e : Except GenError (List Char × Int)) : Prop :=
  ∃ p : List Char × Int, e = Except.ok p ∧ (p.2 = 1 ∨ p.2 = -1)

instance (e : Except GenError (List Char × Int)) : Decidable (okSignPM e) :=
  match e with
  | Except.ok p =>
    decidable_of_iff (p.2 = 1 ∨ p.2 = -1) (by
      constructor
      · intro h
        exact ⟨p, rfl, h⟩
      · rintro ⟨q, hq, h⟩
        injection hq with hpq
        exact hpq ▸ h)
  | Except.error _ =>
    isFalse (by
      rintro ⟨q, hq, -⟩
      exact absurd hq (by simp))

/-! ## Python dict model

Python dicts preserve insertion order and never hold two equal keys; a
`defaultdict` additionally inserts the default value when a missing key is
read.  They are embedded as insertion-ordered association lists: every dict
built by the operations below has pairwise-distinct keys (derived where a
result depends on it). -/

/-- Accumulation `d[k] += v` on a `defaultdict` whose default value is `dflt`:
a present key keeps its position and its value grows by `v`; a missing key is
appended at the end holding `dflt + v`. -/
def addToItems {κ α : Type} [DecidableEq κ] [Add α] (dflt : α) (k : κ) (v : α) :
    List (κ × α) → List (κ × α)
  | [] => [(k, dflt + v)]
  | p :: rest => if p.1 = k then (p.1, p.2 + v) :: rest else p :: addToItems dflt k v rest

/-- Lookup without mutation (`k in d`, and `d[k]` on a known-present key). -/
def lookupVal {κ α : Type} [DecidableEq κ] (l : List (κ × α)) (k : κ) : Option α :=
  (l.find? (fun p => decide (p.1 = k))).map Prod.snd

/-- Lookup with an explicit default (`d.get(k, dflt)`); never mutates. -/
def getDflt {κ α : Type} [DecidableEq κ] (l : List (κ × α)) (k : κ) (dflt : α) : α :=
  (lookupVal l k).getD dflt

/-- Read `d[k]` on a `defaultdict`: a present key returns its value and leaves
the dict alone; a missing key inserts (appends) the default and returns it. -/
def ddGet {κ α : Type} [DecidableEq κ] (dflt : α) (k : κ) (l : List (κ × α)) :
    α × List (κ × α) :=
  match lookupVal l k with
  | some v => (v, l)
  | none => (dflt, l ++ [(k, dflt)])

/-! ## Polynomial ring (`ScalarExpr` in cga.py)

Coefficients are embedded as rationals; the source mixes exact Python ints
with dyadic float literals (such as 0.5 and -1), on which its arithmetic is
exact.  A term key is the sorted list of variable names (`tuple(sorted(k))`). -/

/-- Sparse symbolic polynomial: dict from sorted variable-name lists to
numeric coefficients (`ScalarExpr` of cga.py). -/
structure ScalarExpr where
  terms : List (List String × ℚ)

/-- Insert a string into a sorted list of strings, keeping it sorted. -/
def insertSorted (a : String) : List String → List String
  | [] => [a]
  | b :: rest => if a ≤ b then a :: b :: rest else b :: insertSorted a rest

/-- Python `sorted` on a tuple of variable names (lexicographic string order).
Any sorting algorithm yields the same value list, duplicates being
indistinguishable, so the stable sort of the source is embedded as a
structural insertion sort. -/
def sortKey : List String → List String
  | [] => []
  | a :: rest => insertSorted a (sortKey rest)

/-- Construction from an explicit term sequence (`ScalarExpr.__init__`, cga.py
lines 48-59): each pair with a nonzero coefficient is accumulated into a
`defaultdict(lambda: 0)` under its sorted key. -/
def ScalarExpr.init (ts : List (List String × ℚ)) : ScalarExpr :=
  ⟨ts.foldl (fun d p => if p.2 ≠ 0 then addToItems 0 (sortKey p.1) p.2 d else d) []⟩

/-- Construction from a numeric literal (`ScalarExpr(c)`): the single term
`[((), c)]`. -/
def ScalarExpr.ofNum (q : ℚ) : ScalarExpr := .init [([], q)]

/-- Construction from a variable name (`ScalarExpr('v')`): the single term
`[(('v',), 1)]`. -/
def ScalarExpr.ofVar (v : String) : ScalarExpr := .init [([v], 1)]

/-- Polynomial product (`ScalarExpr.__mul__` with a `ScalarExpr` argument,
cga.py lines 61-69): cross product of the two term dicts, concatenating keys
and multiplying coefficients into a fresh `defaultdict`, then rebuilding
through `__init__` (which re-sorts the concatenated keys). -/
def ScalarExpr.mul (a b : ScalarExpr) : ScalarExpr :=
  .init (a.terms.foldl (fun d p1 =>
    b.terms.foldl (fun d p2 =>
      addToItems 0 (p1.1 ++ p2.1) (p1.2 * p2.2) d) d) [])

/-- Scaling by a bare number (`ScalarExpr.__mul__` with a non-`ScalarExpr`
argument, cga.py line 71): every stored coefficient is multiplied. -/
def ScalarExpr.smul (a : ScalarExpr) (q : ℚ) : ScalarExpr :=
  .init (a.terms.map (fun p => (p.1, p.2 * q)))

/-- Polynomial sum (`ScalarExpr.__add__` with a `ScalarExpr` argument, cga.py
lines 80-85): copy the left dict, accumulate the right dict, drop keys whose
summed coefficient is zero, and rebuild through `__init__`. -/
def ScalarExpr.add (a b : ScalarExpr) : ScalarExpr :=
  .init ((b.terms.foldl (fun d p => addToItems 0 p.1 p.2 d) a.terms).filter
    (fun p => decide (p.2 ≠ 0)))

/-- Adding a bare number (`ScalarExpr.__add__` else branch, cga.py line 87):
`self + ScalarExpr([('', rhs)])`; iterating the empty string gives the empty
variable tuple, so this adds a constant term. -/
def ScalarExpr.addNum (a : ScalarExpr) (q : ℚ) : ScalarExpr :=
  a.add (.init [([], q)])

/-- Negation (`ScalarExpr.__neg__`): scaling by -1. -/
def ScalarExpr.neg (a : ScalarExpr) : ScalarExpr := a.smul (-1)

/-- Difference (`ScalarExpr.__sub__`): `self + (-rhs)`. -/
def ScalarExpr.sub (a b : ScalarExpr) : ScalarExpr := a.add b.neg

/-- Truthiness (`ScalarExpr.__bool__`): some stored coefficient is nonzero. -/
def ScalarExpr.nonzero (a : ScalarExpr) : Bool :=
  a.terms.any (fun p => decide (p.2 ≠ 0))

/-- Comparison against a bare number (`ScalarExpr.__eq__`, cga.py line 129):
exactly one stored term, with the empty key, holding the given number. -/
def ScalarExpr.eqNum (a : ScalarExpr) (q : ℚ) : Bool :=
  decide (a.terms.length = 1) && decide (lookupVal a.terms [] = some q)

instance : Add ScalarExpr := ⟨ScalarExpr.add⟩

/-- Failures of the polynomial reciprocal (cga.py lines 131-139): the two
`cannot invert` raises are the specification's `NotInvertible` error, and
`1/0` on a stored zero constant is Python's built-in `ZeroDivisionError`. -/
inductive PyError where
  | notInvertible
  | zeroDivisionError
  deriving DecidableEq

/-- Reciprocal (`ScalarExpr.recip`, cga.py lines 131-139): defined only when
the stored key list is exactly `[()]`, in which case it is `ScalarExpr` of the
Python expression `1/c` for the stored constant `c`. -/
def ScalarExpr.recip (a : ScalarExpr) : Except PyError ScalarExpr :=
  match a.terms with
  | [] => .error .notInvertible
  | [(k, v)] =>
    if k = [] then
      if v = 0 then .error .zeroDivisionError else .ok (.ofNum (1 / v))
    else .error .notInvertible
  | _ => .error .notInvertible

/-- The empty polynomial: `ScalarExpr()`, also the value of `ScalarExpr(0)`
and the default of `defaultdict(ScalarExpr)`. -/
def SE0 : ScalarExpr := ⟨[]⟩

/-! ## Multivector algebra (`CgaExpr` in cga.py) -/

/-- Symbolic multivector: dict from canonical blade labels to polynomial
coefficients (`CgaExpr` of cga.py). -/
structure CgaExpr where
  terms : List (List Char × ScalarExpr)

/-- Construction from an explicit term sequence (`CgaExpr.__init__`, cga.py
lines 143-155): every truthy coefficient is accumulated (into a
`defaultdict(ScalarExpr)`) at the canonicalized key, scaled by the
canonicalization sign.  Numeric leaves of the source are passed here as
constant polynomials, which matches the dynamic coercion the Python
accumulation performs. -/
def CgaExpr.init (ts : List (List Char × ScalarExpr)) : CgaExpr :=
  ⟨ts.foldl (fun d p =>
    if p.2.nonzero then
      let c := canonicalize p.1
      addToItems SE0 c.1 (p.2.smul (c.2 : ℚ)) d
    else d) []⟩

/-- Geometric product (`CgaExpr.__mul__` with a `CgaExpr` argument, cga.py
lines 157-165): full distribution, canonicalizing each concatenated label
and scaling the coefficient product by the sign, then rebuilding through
`__init__`. -/
def CgaExpr.mul (A B : CgaExpr) : CgaExpr :=
  .init (A.terms.foldl (fun d p1 =>
    B.terms.foldl (fun d p2 =>
      let c := canonicalize (p1.1 ++ p2.1)
      addToItems SE0 c.1 ((p1.2.mul p2.2).smul (c.2 : ℚ)) d) d) [])

/-- Scaling by a bare number (`CgaExpr.__mul__` else branch, cga.py line 167,
with a numeric `rhs`): every stored polynomial is scaled. -/
def CgaExpr.smulRat (A : CgaExpr) (q : ℚ) : CgaExpr :=
  .init (A.terms.map (fun p => (p.1, p.2.smul q)))

/-- Scaling by a bare polynomial (`CgaExpr.__mul__` else branch with a
`ScalarExpr` rhs): every stored polynomial is multiplied by it. -/
def CgaExpr.smulScalar (A : CgaExpr) (s : ScalarExpr) : CgaExpr :=
  .init (A.terms.map (fun p => (p.1, p.2.mul s)))

/-- Multivector sum (`CgaExpr.__add__`, cga.py lines 182-188): copy the left
dict, accumulate the right dict, rebuild through `__init__`. -/
def CgaExpr.add (A B : CgaExpr) : CgaExpr :=
  .init (B.terms.foldl (fun d p => addToItems SE0 p.1 p.2 d) A.terms)

/-- Negation (`CgaExpr.__neg__`): scaling by -1. -/
def CgaExpr.neg (A : CgaExpr) : CgaExpr := A.smulRat (-1)

/-- Difference (`CgaExpr.__sub__`): `self + (-rhs)`. -/
def CgaExpr.sub (A B : CgaExpr) : CgaExpr := A.add B.neg

/-- Grade (`CgaExpr.grade`, cga.py line 257): length of the first stored key.
On an empty dict the source raises `StopIteration` (`next(iter(...))`); that
case is modelled as 0 and is never exercised below. -/
def CgaExpr.grade (A : CgaExpr) : Int :=
  match A.terms with
  | p :: _ => (p.1.length : Int)
  | [] => 0

/-- Grade projection (cga.py line 277): keep the terms whose key length is the
requested grade (an `Int`, since the contraction can request a negative one). -/
def CgaExpr.grade_project (A : CgaExpr) (g : Int) : CgaExpr :=
  .init (A.terms.filter (fun p => decide ((p.1.length : Int) = g)))

/-- Left contraction (`CgaExpr.__lshift__`): product projected to the grade
difference. -/
def CgaExpr.lshift (A B : CgaExpr) : CgaExpr :=
  (A.mul B).grade_project (B.grade - A.grade)

/-- Outer product (`CgaExpr.__xor__`): product projected to the grade sum. -/
def CgaExpr.xor (A B : CgaExpr) : CgaExpr :=
  (A.mul B).grade_project (A.grade + B.grade)

/-- Scalar part (`CgaExpr.s`, cga.py line 261): coefficient of the empty label,
or `ScalarExpr(0)` when absent (plain `dict.get`: no mutation). -/
def CgaExpr.s (A : CgaExpr) : ScalarExpr := getDflt A.terms [] SE0

/-- Reverse (`CgaExpr.rev`, cga.py line 265): store each blade under its
reversed label and rebuild through `__init__` (which re-canonicalizes). -/
def CgaExpr.rev (A : CgaExpr) : CgaExpr :=
  .init (A.terms.map (fun p => (p.1.reverse, p.2)))

/-- Point at infinity, `NI = CgaExpr([('-', 1), ('+', 1)])` (cga.py line 280). -/
def NI : CgaExpr := .init [(['-'], .ofNum 1), (['+'], .ofNum 1)]

/-- Origin, `NO = CgaExpr([('-', 1), ('+', -1)]) * 0.5` (cga.py line 281). -/
def NO : CgaExpr := (CgaExpr.init [(['-'], .ofNum 1), (['+'], .ofNum (-1))]).smulRat (1/2)

/-- Conformal point embedding `point_at(x)` (cga.py lines 298-300) with the
default `y = z = 0`: `NO + CgaExpr([('x', x)]) + NI * 0.5 * mag2` where
`mag2 = x*x`. -/
def point_at (x : ScalarExpr) : CgaExpr :=
  let mag2 := x.mul x
  (NO.add (CgaExpr.init [(['x'], x)])).add ((NI.smulRat (1/2)).smulScalar mag2)

/-- Transpositions charged while pulling every occurrence of `c` to the front:
each occurrence of `c` is charged the number of other characters before it. -/
def swapsSpec (c : Char) : List Char → Nat
  | [] => 0
  | x :: rest => if x = c then swapsSpec c rest else rest.count c + swapsSpec c rest

/-- Inversion count of an axis sequence with respect to the fixed order. -/
def invCount : List Char → Nat
  | [] => 0
  | x :: rest => rest.countP (fun y => decide (idxA y < idxA x)) + invCount rest

/-- Crossing count between two sequences: pairs (x from s, y from t) out of
order with respect to the fixed order. -/
def cross (s t : List Char) : Nat :=
  (s.map (fun x => t.countP (fun y => decide (idxA y < idxA x)))).sum

/-- Swap count accumulated by the sorting pass: inversions counted axis class
by axis class against the progressively filtered remainder. -/
def invPartial : List Char → List Char → Nat
  | [], _ => 0
  | c :: cs, l => swapsSpec c l + invPartial cs (l.filter (fun x => decide (x ≠ c)))

/-- Canonical blade label: axes strictly increasing in the fixed `AXES` order
(hence no repeats), all drawn from the alphabet. -/
def Canonical (l : List Char) : Prop :=
  l.Pairwise (fun a b => idxA a < idxA b) ∧ ∀ c ∈ l, c ∈ AXES

instance (l : List Char) : Decidable (Canonical l) :=
  decidable_of_iff (l.Pairwise (fun a b => idxA a < idxA b) ∧ ∀ c ∈ l, c ∈ AXES) Iff.rfl


/-! ## Denotations

Proof-side semantics: polynomials denote elements of the monoid algebra of
variable-name multisets over the rationals, and multivectors denote functions
from blade labels to such polynomials (a stored zero or a duplicate entry is
invisible to the denotation, absent labels denote zero). -/

/-- Mathematical polynomial ring: monoid algebra of variable multisets. -/
abbrev PolyQ : Type := AddMonoidAlgebra ℚ (Multiset String)

/-- Constant mathematical polynomial. -/
noncomputable def constP (q : ℚ) : PolyQ := AddMonoidAlgebra.single 0 q

/-- Denotation of a polynomial term dict: sum of its monomials. -/
noncomputable def toPolyItems (its : List (List String × ℚ)) : PolyQ :=
  (its.map (fun p => AddMonoidAlgebra.single ((p.1 : Multiset String)) p.2)).sum

/-- Denotation of a `ScalarExpr` as a mathematical polynomial. -/
noncomputable def toPoly (e : ScalarExpr) : PolyQ := toPolyItems e.terms

/-- Denotation of a multivector term dict at one blade label. -/
noncomputable def mdenItems (its : List (List Char × ScalarExpr)) (l : List Char) : PolyQ :=
  (its.map (fun p => if p.1 = l then toPoly p.2 else 0)).sum

/-- Denotation of a `CgaExpr`: polynomial coefficient carried at each label. -/
noncomputable def mden (A : CgaExpr) (l : List Char) : PolyQ := mdenItems A.terms l

/-- The 32 canonical blade labels over the symbolic alphabet. -/
def CLfin : Finset (List Char) := AXES.sublists.toFinset

/-- Mathematical blade product on label-indexed coefficient functions: full
distribution over canonical labels, canonicalizing each concatenation. -/
noncomputable def bmul (f g : List Char → PolyQ) (l : List Char) : PolyQ :=
  ∑ l1 ∈ CLfin, ∑ l2 ∈ CLfin,
    if (canonicalize (l1 ++ l2)).1 = l then
      constP (((canonicalize (l1 ++ l2)).2 : ℚ)) * (f l1 * g l2)
    else 0

/-- Fully distributed triple blade product over canonical labels. -/
noncomputable def bmul3 (f g h : List Char → PolyQ) (l : List Char) : PolyQ :=
  ∑ l1 ∈ CLfin, ∑ l2 ∈ CLfin, ∑ l3 ∈ CLfin,
    if (canonicalize (l1 ++ l2 ++ l3)).1 = l then
      constP (((canonicalize (l1 ++ l2 ++ l3)).2 : ℚ)) * (f l1 * (g l2 * h l3))
    else 0

/-- Data-model invariant of a multivector (spec section 3): canonical blade
keys and nonzero polynomial coefficients (each stored polynomial is truthy and
stores no zero numeric coefficient). -/
def CgaWF (A : CgaExpr) : Prop :=
  ∀ p ∈ A.terms, Canonical p.1 ∧ (∀ t ∈ p.2.terms, t.2 ≠ 0) ∧ p.2.nonzero = true

instance (A : CgaExpr) : Decidable (CgaWF A) :=
  inferInstanceAs (Decidable (∀ p ∈ A.terms, _ ∧ _ ∧ _))

/-! ## Text rendering (`__str__` / `get_human_term`, cga.py lines 20-23, 98-126,
202-253), for the `LATEX = False` configuration of the source -/

/-- `GANJA_AXES` table (cga.py lines 6-15). -/
def GANJA_AXES : List (Char × String) :=
  [('-', "eminus"), ('+', "eplus"), ('i', "ni"), ('o', "no"),
   ('x', "1e1"), ('y', "1e2"), ('z', "1e3"), ('E', "(eminus*eplus)")]

/-- `powerset` (cga.py lines 20-23): subsets enumerated by increasing size,
each size in `itertools.combinations` order. -/
def powersetL (l : List Char) : List (List Char) :=
  (List.range (l.length + 1)).flatMap (fun r => combinations r l)

/-- Python tuple comparison on variable tuples: lexicographic, strings compared
by their order. -/
def leKeyStr : List String → List String → Bool
  | [], _ => true
  | _ :: _, [] => false
  | a :: as, b :: bs => if a = b then leKeyStr as bs else decide (a < b)

def insertKeyStr (k : List String) : List (List String) → List (List String)
  | [] => [k]
  | j :: rest => if leKeyStr k j then k :: j :: rest else j :: insertKeyStr k rest

/-- `sorted` over the stored variable tuples (insertion sort; the Python sort
is stable, and distinct keys make the result unique). -/
def sortKeysStr : List (List String) → List (List String)
  | [] => []
  | k :: rest => insertKeyStr k (sortKeysStr rest)

/-- `var_to_string` (cga.py lines 99-106, `LATEX = False` branch). -/
def var_to_string (v : String) (power : Nat) : String :=
  if power = 1 then v else v ++ "**" ++ toString power

/-- `term_to_string` (cga.py lines 108-121, `LATEX = False` branches).
`Counter(vars)` with sorted distinct keys is the dedup of the already-sorted
stored tuple with its multiplicities.  `showNum` stands for Python's number
formatting `f-string` of the raw coefficient. -/
def term_to_string (showNum : ℚ → String) (coef : ℚ) (vars : List String) : String :=
  let var_string := " * ".intercalate
    (vars.dedup.map (fun v => var_to_string v (vars.count v)))
  if decide (coef = 1) && !var_string.isEmpty then var_string
  else if decide (coef = -1) && !var_string.isEmpty then "-(" ++ var_string ++ ")"
  else showNum coef ++ " * " ++ var_string

/-- `ScalarExpr.__str__` (cga.py lines 123-126): terms joined over the sorted
keys.  The `self.terms[var]` reads are over present keys, hence pure. -/
def scalarStr (showNum : ℚ → String) (e : ScalarExpr) : String :=
  " + ".intercalate ((sortKeysStr (e.terms.map Prod.fst)).map
    (fun v => term_to_string showNum (getDflt e.terms v 0) v))

/-- `CgaExpr.get_human_term` (cga.py lines 222-253, `LATEX = False` branches):
returns the rendered term TOGETHER with the term dict left behind, because
every `self.terms[...]` read goes through `defaultdict.__getitem__` (`ddGet`),
which inserts a default entry at a missing key. -/
def get_human_term (showNum : ℚ → String) (ts : List (List Char × ScalarExpr))
    (axes : List Char) : String × List (List Char × ScalarExpr) :=
  let a := axes.drop 1
  let cd :=
    if axes.head? = some 'o' then
      let r1 := ddGet SE0 ('-' :: a) ts
      let r2 := ddGet SE0 ('+' :: a) r1.2
      (r1.1.sub r2.1, r2.2)
    else if axes.head? = some 'i' then
      let r1 := ddGet SE0 ('-' :: a) ts
      let r2 := ddGet SE0 ('+' :: a) r1.2
      ((r1.1.add r2.1).smul (1/2), r2.2)
    else if axes.head? = some 'E' then
      let r := ddGet SE0 ('-' :: '+' :: a) ts
      (r.1, r.2)
    else
      let r := ddGet SE0 axes ts
      (r.1, r.2)
  let coef := cd.1
  let ts2 := cd.2
  if coef.nonzero = false then ("", ts2)
  else
    let axes_string := "*".intercalate (axes.map (fun c => getDflt GANJA_AXES c ""))
    if coef.eqNum 1 && !axes_string.isEmpty then (axes_string, ts2)
    else if coef.eqNum (-1) && !axes_string.isEmpty then ("-" ++ axes_string, ts2)
    else if decide (1 < coef.terms.length) then
      ("(" ++ scalarStr showNum coef ++ ") * " ++ axes_string, ts2)
    else (scalarStr showNum coef ++ " * " ++ axes_string, ts2)

/-- The generator expression of `CgaExpr.__str__` (cga.py lines 216-220):
for each subset the filter condition calls `get_human_term` once, and a truthy
result makes the yield call it a second time; both calls thread the mutated
dict. -/
def cgaStrGo (showNum : ℚ → String) :
    List (List Char) → List (List Char × ScalarExpr) →
    List String × List (List Char × ScalarExpr)
  | [], ts => ([], ts)
  | axes :: rest, ts =>
    let c := get_human_term showNum ts axes
    if c.1 = "" then cgaStrGo showNum rest c.2
    else
      let v := get_human_term showNum c.2 axes
      let r := cgaStrGo showNum rest v.2
      (v.1 :: r.1, r.2)

/-- `CgaExpr.__str__` (cga.py lines 202-220, `LATEX = False` branch): join the
truthy rendered terms over the powerset of `AXES`, postprocess with the two
`replace` calls, and return the term dict the rendering leaves behind. -/
def cgaStr (showNum : ℚ → String) (A : CgaExpr) : String × CgaExpr :=
  let r := cgaStrGo showNum (powersetL AXES) A.terms
  (((" + ".intercalate r.1).replace ".0 " " ").replace " + -" " - ", ⟨r.2⟩)

/-! ## Theorems -/

theorem keys_addToItems {κ α : Type} [DecidableEq κ] [Add α] (dflt : α) (k : κ) (v : α) :
    ∀ l : List (κ × α), (addToItems dflt k v l).map Prod.fst =
      if k ∈ l.map Prod.fst then l.map Prod.fst else l.map Prod.fst ++ [k] := by
  intro l
  induction l with
  | nil => simp [addToItems]
  | cons p rest ih =>
    by_cases hpk : p.1 = k
    · simp [addToItems, hpk]
    · have hkp : ¬(k = p.1) := fun h => hpk h.symm
      simp only [addToItems, if_neg hpk, List.map_cons, List.mem_cons, hkp, false_or]
      rw [ih]
      by_cases hk : k ∈ rest.map Prod.fst
      · rw [if_pos hk, if_pos hk]
      · rw [if_neg hk, if_neg hk, List.cons_append]

/-! ## Closed form of the canonicalizer

The sorting pass of `canonicalize` computes an inversion count; the pair
counting and pair removal act per-axis on occurrence counts.  This section
derives the closed form: label = axes with odd occurrence count in the fixed
order, sign = (-1) to the inversions plus half the occurrences of the
negative-square axis. -/

theorem swapsSpec_of_not_mem {c : Char} : ∀ {l : List Char}, c ∉ l → swapsSpec c l = 0 := by
  intro l
  induction l with
  | nil => intro _; rfl
  | cons x r ih =>
    intro h
    have hx : ¬x = c := fun he => h (by simp [he])
    have hr : c ∉ r := fun hm => h (List.mem_cons_of_mem _ hm)
    simp [swapsSpec, hx, ih hr, List.count_eq_zero_of_not_mem hr]

theorem swapsSpec_erase (c : Char) : ∀ l : List Char, c ∈ l →
    l.indexOf c + swapsSpec c (l.erase c) = swapsSpec c l := by
  intro l
  induction l with
  | nil => intro h; cases h
  | cons x r ih =>
    intro hc
    by_cases hx : x = c
    · subst hx
      simp [List.indexOf_cons, swapsSpec, List.erase_cons_head]
    · have hcr : c ∈ r := by
        rcases List.mem_cons.1 hc with h | h
        · exact absurd h.symm hx
        · exact h
      have hbeq : (x == c) = false := by simpa using hx
      rw [List.indexOf_cons, hbeq, List.erase_cons_tail (by simpa using hbeq)]
      have hcount : r.count c ≥ 1 := List.count_pos_iff.2 hcr
      have herase : (r.erase c).count c = r.count c - 1 := List.count_erase_self c r
      simp only [swapsSpec, if_neg hx, cond_false]
      rw [herase]
      have := ih hcr
      omega

theorem filter_ne_erase (c : Char) : ∀ l : List Char,
    (l.erase c).filter (fun x => decide (x ≠ c)) = l.filter (fun x => decide (x ≠ c)) := by
  intro l
  induction l with
  | nil => rfl
  | cons x r ih =>
    by_cases hx : x = c
    · subst hx
      simp [List.erase_cons_head]
    · rw [List.erase_cons_tail (by simpa using hx)]
      have hx2 : decide (x ≠ c) = true := by simpa using hx
      simp only [List.filter_cons, hx2, if_true]
      rw [ih]

theorem pullLoop_eq (c : Char) : ∀ (n : Nat) (l : List Char), l.length ≤ n →
    pullLoop c n l = (l.filter (fun x => decide (x ≠ c)), swapsSpec c l, l.count c) := by
  intro n
  induction n with
  | zero =>
    intro l hl
    have : l = [] := List.eq_nil_of_length_eq_zero (Nat.le_zero.1 hl)
    subst this
    rfl
  | succ n ih =>
    intro l hl
    by_cases hc : c ∈ l
    · have hlen : (l.erase c).length ≤ n := by
        rw [List.length_erase_of_mem hc]
        omega
      have hrec := ih (l.erase c) hlen
      simp only [pullLoop, if_pos hc, hrec]
      refine congrArg₂ Prod.mk ?_ (congrArg₂ Prod.mk ?_ ?_)
      · exact filter_ne_erase c l
      · exact swapsSpec_erase c l hc
      · have hcount : l.count c ≥ 1 := List.count_pos_iff.2 hc
        rw [List.count_erase_self]
        omega
    · simp only [pullLoop, if_neg hc]
      rw [swapsSpec_of_not_mem hc, List.count_eq_zero_of_not_mem hc,
        List.filter_eq_self.2 (fun a ha => by
          simp only [decide_eq_true_eq]
          exact fun he => hc (he ▸ ha))]

theorem count_filter_ne {b c : Char} (hbc : b ≠ c) (l : List Char) :
    (l.filter (fun x => decide (x ≠ c))).count b = l.count b :=
  List.count_filter (by simpa using hbc)

theorem pullPhase_eq : ∀ (cs rem : List Char), cs.Nodup →
    pullPhase cs rem = ((cs.map (fun c => List.replicate (rem.count c) c)).flatten,
      invPartial cs rem, rem.filter (fun x => decide (x ∉ cs))) := by
  intro cs
  induction cs with
  | nil =>
    intro rem _
    simp [pullPhase, invPartial]
  | cons c cs2 ih =>
    intro rem hnd
    have hc2 : c ∉ cs2 := (List.nodup_cons.1 hnd).1
    have hnd2 : cs2.Nodup := (List.nodup_cons.1 hnd).2
    have hloop := pullLoop_eq c rem.length rem (Nat.le_refl _)
    have hrec := ih (rem.filter (fun x => decide (x ≠ c))) hnd2
    simp only [pullPhase, hloop, hrec]
    refine congrArg₂ Prod.mk ?_ (congrArg₂ Prod.mk rfl ?_)
    · rw [List.map_cons, List.flatten_cons]
      refine congrArg₂ HAppend.hAppend rfl (congrArg List.flatten ?_)
      refine List.map_congr_left ?_
      intro b hb
      have hbc : b ≠ c := fun he => hc2 (he ▸ hb)
      rw [count_filter_ne hbc]
    · rw [List.filter_filter]
      refine List.filter_congr ?_
      intro x _
      rcases Decidable.em (x = c) with hx | hx
      · simp [hx]
      · simp [hx, List.mem_cons]

theorem countSub2_of_not_mem {d : Char} : ∀ l : List Char, d ∉ l → countSub2 d l = 0 := by
  intro l
  induction l with
  | nil => intro _; rfl
  | cons x r ih =>
    intro h
    cases r with
    | nil => rfl
    | cons y r2 =>
      have hx : ¬(x = d ∧ y = d) := by
        rintro ⟨hx, -⟩
        exact h (by simp [hx])
      rw [countSub2, if_neg hx]
      exact ih (fun hm => h (List.mem_cons_of_mem _ hm))

theorem countSub2_replicate_append {d : Char} : ∀ (k : Nat) (r : List Char), d ∉ r →
    countSub2 d (List.replicate k d ++ r) = k / 2 := by
  intro k
  induction k using Nat.strong_induction_on with
  | _ k ih =>
    match k with
    | 0 =>
      intro r hr
      simpa using countSub2_of_not_mem r hr
    | 1 =>
      intro r hr
      cases r with
      | nil => rfl
      | cons y r2 =>
        have hy : ¬(d = d ∧ y = d) := by
          rintro ⟨-, hy⟩
          exact hr (by simp [hy])
        have h1 : List.replicate 1 d ++ (y :: r2) = d :: y :: r2 := rfl
        rw [h1]
        show (if d = d ∧ y = d then 1 + countSub2 d r2 else countSub2 d (y :: r2)) = 1 / 2
        rw [if_neg hy]
        exact countSub2_of_not_mem _ hr
    | k + 2 =>
      intro r hr
      have h2 : List.replicate (k + 2) d ++ r = d :: d :: (List.replicate k d ++ r) := by
        simp [List.replicate_succ]
      rw [h2]
      show (if d = d ∧ d = d then 1 + countSub2 d (List.replicate k d ++ r)
        else countSub2 d (d :: (List.replicate k d ++ r))) = (k + 2) / 2
      rw [if_pos (show d = d ∧ d = d from ⟨rfl, rfl⟩), ih k (by omega) r hr]
      omega

theorem removePairs_of_not_mem {d : Char} : ∀ l : List Char, d ∉ l → removePairs d l = l := by
  intro l
  induction l with
  | nil => intro _; rfl
  | cons x r ih =>
    intro h
    cases r with
    | nil => rfl
    | cons y r2 =>
      have hx : ¬(x = d ∧ y = d) := by
        rintro ⟨hx, -⟩
        exact h (by simp [hx])
      rw [removePairs, if_neg hx]
      rw [ih (fun hm => h (List.mem_cons_of_mem _ hm))]

theorem removePairs_cons_ne {d x : Char} (hx : x ≠ d) (ys : List Char) :
    removePairs d (x :: ys) = x :: removePairs d ys := by
  cases ys with
  | nil => rfl
  | cons y r => rw [removePairs, if_neg (by rintro ⟨h, -⟩; exact hx h)]

theorem removePairs_replicate {d : Char} : ∀ (k : Nat) (r : List Char), d ∉ r →
    removePairs d (List.replicate k d ++ r) = List.replicate (k % 2) d ++ r := by
  intro k
  induction k using Nat.strong_induction_on with
  | _ k ih =>
    match k with
    | 0 =>
      intro r hr
      simpa using removePairs_of_not_mem r hr
    | 1 =>
      intro r hr
      cases r with
      | nil => rfl
      | cons y r2 =>
        have hy : ¬(d = d ∧ y = d) := by
          rintro ⟨-, hy⟩
          exact hr (by simp [hy])
        have h1 : List.replicate 1 d ++ (y :: r2) = d :: y :: r2 := rfl
        rw [h1]
        show (if d = d ∧ y = d then removePairs d r2 else d :: removePairs d (y :: r2)) =
          List.replicate (1 % 2) d ++ (y :: r2)
        rw [if_neg hy, removePairs_of_not_mem _ hr]
        rfl
    | k + 2 =>
      intro r hr
      have h2 : List.replicate (k + 2) d ++ r = d :: d :: (List.replicate k d ++ r) := by
        simp [List.replicate_succ]
      rw [h2]
      show (if d = d ∧ d = d then removePairs d (List.replicate k d ++ r)
        else d :: removePairs d (d :: (List.replicate k d ++ r))) =
        List.replicate ((k + 2) % 2) d ++ r
      rw [if_pos (show d = d ∧ d = d from ⟨rfl, rfl⟩), ih k (by omega) r hr]
      have h3 : (k + 2) % 2 = k % 2 := by omega
      rw [h3]

theorem removePairs_append_of_ne {d : Char} : ∀ (pre post : List Char),
    (∀ x ∈ pre, x ≠ d) → removePairs d (pre ++ post) = pre ++ removePairs d post := by
  intro pre
  induction pre with
  | nil => intro post _; rfl
  | cons x p2 ih =>
    intro post h
    rw [List.cons_append, removePairs_cons_ne (h x (by simp))]
    rw [ih post (fun y hy => h y (List.mem_cons_of_mem _ hy))]
    rfl

theorem removeAll_append_of_not_mem : ∀ (cs pre post : List Char),
    (∀ x ∈ pre, x ∉ cs) → removeAll cs (pre ++ post) = pre ++ removeAll cs post := by
  intro cs
  induction cs with
  | nil => intro pre post _; rfl
  | cons c cs2 ih =>
    intro pre post h
    rw [removeAll, removePairs_append_of_ne pre post
      (fun x hx => fun he => h x hx (by simp [he]))]
    rw [ih pre _ (fun x hx => fun hm => h x hx (List.mem_cons_of_mem _ hm))]
    rfl

theorem mem_flatten_replicate {cs : List Char} {k : Char → Nat} {x : Char}
    (h : x ∈ (cs.map (fun c => List.replicate (k c) c)).flatten) : x ∈ cs := by
  rcases List.mem_flatten.1 h with ⟨l, hl, hx⟩
  rcases List.mem_map.1 hl with ⟨c, hc, rfl⟩
  rcases List.eq_of_mem_replicate hx with rfl
  exact hc

theorem removeAll_flatten_replicate : ∀ (cs : List Char) (k : Char → Nat), cs.Nodup →
    removeAll cs ((cs.map (fun c => List.replicate (k c) c)).flatten) =
      cs.filter (fun c => decide (k c % 2 = 1)) := by
  intro cs
  induction cs with
  | nil => intro k _; rfl
  | cons c cs2 ih =>
    intro k hnd
    have hc2 : c ∉ cs2 := (List.nodup_cons.1 hnd).1
    have hnd2 : cs2.Nodup := (List.nodup_cons.1 hnd).2
    have hcr : c ∉ (cs2.map (fun b => List.replicate (k b) b)).flatten :=
      fun hm => hc2 (mem_flatten_replicate hm)
    have hpre : ∀ x ∈ List.replicate (k c % 2) c, x ∉ cs2 := by
      intro x hx
      rcases List.eq_of_mem_replicate hx with rfl
      exact hc2
    rw [List.map_cons, List.flatten_cons, removeAll,
      removePairs_replicate (k c) _ hcr,
      removeAll_append_of_not_mem cs2 _ _ hpre,
      ih k hnd2]
    rcases Nat.mod_two_eq_zero_or_one (k c) with h2 | h2
    · have : decide (k c % 2 = 1) = false := by simp [h2]
      rw [List.filter_cons, this, h2]
      simp
    · have : decide (k c % 2 = 1) = true := by simp [h2]
      rw [List.filter_cons, this, h2]
      simp

theorem canonicalize_fst (s : List Char) :
    (canonicalize s).1 = AXES.filter (fun c => decide (s.count c % 2 = 1)) := by
  have hnd : AXES.Nodup := by decide
  rw [canonicalize, pullPhase_eq AXES s hnd]
  exact removeAll_flatten_replicate AXES (fun c => s.count c) hnd

theorem axes_pairwise : AXES.Pairwise (fun a b => idxA a < idxA b) := by decide

theorem countSub2_flatten (s : List Char) :
    countSub2 '-' ((AXES.map (fun c => List.replicate (s.count c) c)).flatten) =
      s.count '-' / 2 := by
  have hsplit : (AXES.map (fun c => List.replicate (s.count c) c)).flatten =
      List.replicate (s.count '-') '-' ++
        ((['+', 'x', 'y', 'z'].map (fun c => List.replicate (s.count c) c)).flatten) := by
    simp [AXES]
  rw [hsplit]
  apply countSub2_replicate_append
  intro hm
  have := mem_flatten_replicate hm
  simp at this

theorem swapsSpec_cons (c x : Char) (r : List Char) :
    swapsSpec c (x :: r) = if x = c then swapsSpec c r else r.count c + swapsSpec c r := rfl

theorem invCount_cons (x : Char) (r : List Char) :
    invCount (x :: r) = r.countP (fun y => decide (idxA y < idxA x)) + invCount r := rfl

theorem countP_split_at {c x : Char} (hcx : idxA c < idxA x) : ∀ r : List Char,
    r.countP (fun y => decide (idxA y < idxA x)) =
      r.count c + (r.filter (fun y => decide (y ≠ c))).countP
        (fun y => decide (idxA y < idxA x)) := by
  intro r
  induction r with
  | nil => rfl
  | cons z r2 ih =>
    rw [List.countP_cons, List.count_cons, List.filter_cons]
    by_cases hz : z = c
    · have h1 : (z == c) = true := by simpa using hz
      have h2 : decide (z ≠ c) = false := by simp [hz]
      have h3 : decide (idxA z < idxA x) = true := by
        subst hz
        simpa using hcx
      rw [h1, h2, h3]
      simp only [if_true, Bool.false_eq_true, if_false]
      omega
    · have h1 : (z == c) = false := by simpa using hz
      have h2 : decide (z ≠ c) = true := by simpa using hz
      rw [h1, h2]
      simp only [Bool.false_eq_true, if_false, if_true, List.countP_cons]
      omega

theorem invCount_of_min (c : Char) : ∀ l : List Char,
    (∀ y ∈ l, y = c ∨ idxA c < idxA y) →
    invCount l = swapsSpec c l + invCount (l.filter (fun x => decide (x ≠ c))) := by
  intro l
  induction l with
  | nil => intro _; rfl
  | cons x r ih =>
    intro h
    have hr : ∀ y ∈ r, y = c ∨ idxA c < idxA y :=
      fun y hy => h y (List.mem_cons_of_mem _ hy)
    by_cases hx : x = c
    · subst hx
      have h0 : r.countP (fun y => decide (idxA y < idxA x)) = 0 := by
        rw [List.countP_eq_zero]
        intro y hy
        rcases hr y hy with rfl | hlt
        · simp
        · simp only [decide_eq_true_eq]
          omega
      have hfc : decide (x ≠ x) = false := by simp
      rw [invCount_cons, h0, Nat.zero_add, swapsSpec_cons, if_pos rfl,
        List.filter_cons, hfc]
      simp only [Bool.false_eq_true, if_false]
      exact ih hr
    · have hlt : idxA c < idxA x := by
        rcases h x (List.mem_cons_self x r) with he | hlt
        · exact absurd he hx
        · exact hlt
      have hfc : decide (x ≠ c) = true := by simpa using hx
      rw [invCount_cons, swapsSpec_cons, if_neg hx, List.filter_cons, hfc]
      simp only [if_true]
      rw [invCount_cons, countP_split_at hlt r, ih hr]
      omega

theorem invPartial_eq : ∀ cs : List Char, cs.Pairwise (fun a b => idxA a < idxA b) →
    ∀ l : List Char, (∀ y ∈ l, y ∈ cs) → invPartial cs l = invCount l := by
  intro cs
  induction cs with
  | nil =>
    intro _ l h
    have : l = [] := List.eq_nil_iff_forall_not_mem.2 (fun a ha => (List.not_mem_nil a) (h a ha))
    subst this
    rfl
  | cons c cs2 ih =>
    intro hcs l h
    have hmin : ∀ y ∈ l, y = c ∨ idxA c < idxA y := by
      intro y hy
      rcases List.mem_cons.1 (h y hy) with rfl | hm
      · exact Or.inl rfl
      · exact Or.inr ((List.pairwise_cons.1 hcs).1 y hm)
    have hfl : ∀ y ∈ l.filter (fun x => decide (x ≠ c)), y ∈ cs2 := by
      intro y hy
      have hm := List.mem_filter.1 hy
      have hyc : y ≠ c := by simpa using hm.2
      rcases List.mem_cons.1 (h y hm.1) with rfl | h2
      · exact absurd rfl hyc
      · exact h2
    rw [invPartial, ih (List.pairwise_cons.1 hcs).2 _ hfl, ← invCount_of_min c l hmin]

theorem neg_one_pow_ite (n : Nat) :
    ((-1 : ℤ)) ^ n = if n % 2 = 1 then -1 else 1 := by
  rcases Nat.even_or_odd n with he | ho
  · rw [Even.neg_one_pow he, if_neg]
    have := Nat.even_iff.1 he
    omega
  · rw [Odd.neg_one_pow ho, if_pos (Nat.odd_iff.1 ho)]

theorem canonicalize_snd (s : List Char) (h : ∀ c ∈ s, c ∈ AXES) :
    (canonicalize s).2 = (-1 : ℤ) ^ (invCount s + s.count '-' / 2) := by
  have hnd : AXES.Nodup := by decide
  rw [canonicalize, pullPhase_eq AXES s hnd]
  show (if (invPartial AXES s +
      countSub2 '-' ((AXES.map (fun c => List.replicate (s.count c) c)).flatten)) % 2 = 1
    then (-1 : ℤ) else 1) = (-1 : ℤ) ^ (invCount s + s.count '-' / 2)
  rw [countSub2_flatten s, invPartial_eq AXES axes_pairwise s h, neg_one_pow_ite]

theorem Canonical.nodup {l : List Char} (h : Canonical l) : l.Nodup := by
  refine h.1.imp ?_
  intro a b hab he
  rw [he] at hab
  exact lt_irrefl _ hab

theorem canonical_count {l : List Char} (h : Canonical l) (c : Char) :
    l.count c = if c ∈ l then 1 else 0 := by
  by_cases hc : c ∈ l
  · rw [if_pos hc, List.count_eq_one_of_mem h.nodup hc]
  · rw [if_neg hc, List.count_eq_zero_of_not_mem hc]

theorem filter_mem_eq_of_canonical : ∀ al l : List Char,
    al.Pairwise (fun a b => idxA a < idxA b) →
    l.Pairwise (fun a b => idxA a < idxA b) → (∀ c ∈ l, c ∈ al) →
    al.filter (fun c => decide (c ∈ l)) = l := by
  intro al
  induction al with
  | nil =>
    intro l _ _ h
    have : l = [] := List.eq_nil_iff_forall_not_mem.2 (fun a ha => (List.not_mem_nil a) (h a ha))
    subst this
    rfl
  | cons a al2 ih =>
    intro l hal hl h
    by_cases ha : a ∈ l
    · cases l with
      | nil => cases ha
      | cons c l2 =>
        have hac : a = c := by
          rcases List.mem_cons.1 ha with h1 | h1
          · exact h1
          · exfalso
            have hca : idxA c < idxA a := (List.pairwise_cons.1 hl).1 a h1
            rcases List.mem_cons.1 (h c (List.mem_cons_self c l2)) with h2 | h2
            · rw [h2] at hca
              exact lt_irrefl _ hca
            · have := (List.pairwise_cons.1 hal).1 c h2
              omega
        subst hac
        have hmem : decide (a ∈ a :: l2) = true := by simp
        rw [List.filter_cons, hmem]
        simp only [if_true]
        have hana : a ∉ al2 := by
          intro hm
          have := (List.pairwise_cons.1 hal).1 a hm
          omega
        have hcong : al2.filter (fun c => decide (c ∈ a :: l2)) =
            al2.filter (fun c => decide (c ∈ l2)) := by
          apply List.filter_congr
          intro y hy
          have hya : ¬y = a := fun he => hana (he ▸ hy)
          simp [List.mem_cons, hya]
        rw [hcong]
        refine congrArg (a :: ·) (ih l2 (List.pairwise_cons.1 hal).2
          (List.pairwise_cons.1 hl).2 ?_)
        intro b hb
        have hba : b ≠ a := by
          intro he
          have := (List.pairwise_cons.1 hl).1 b hb
          rw [he] at this
          exact lt_irrefl _ this
        rcases List.mem_cons.1 (h b (List.mem_cons_of_mem _ hb)) with h2 | h2
        · exact absurd h2 hba
        · exact h2
    · have hmem : decide (a ∈ l) = false := by simpa using ha
      rw [List.filter_cons, hmem]
      simp only [Bool.false_eq_true, if_false]
      refine ih l (List.pairwise_cons.1 hal).2 hl ?_
      intro b hb
      rcases List.mem_cons.1 (h b hb) with rfl | h2
      · exact absurd hb ha
      · exact h2

theorem invCount_eq_zero {l : List Char}
    (h : l.Pairwise (fun a b => idxA a < idxA b)) : invCount l = 0 := by
  induction l with
  | nil => rfl
  | cons x r ih =>
    rw [invCount_cons]
    have h1 : r.countP (fun y => decide (idxA y < idxA x)) = 0 := by
      rw [List.countP_eq_zero]
      intro y hy
      have := (List.pairwise_cons.1 h).1 y hy
      simp only [decide_eq_true_eq]
      omega
    rw [h1, ih (List.pairwise_cons.1 h).2]

theorem canon_of_canonical {l : List Char} (h : Canonical l) :
    canonicalize l = (l, 1) := by
  have hfst : (canonicalize l).1 = l := by
    rw [canonicalize_fst]
    have hcong : AXES.filter (fun c => decide (l.count c % 2 = 1)) =
        AXES.filter (fun c => decide (c ∈ l)) := by
      apply List.filter_congr
      intro c _
      rw [canonical_count h c]
      by_cases hc : c ∈ l
      · simp [hc]
      · simp [hc]
    rw [hcong]
    exact filter_mem_eq_of_canonical AXES l axes_pairwise h.1 h.2
  have hsnd : (canonicalize l).2 = 1 := by
    rw [canonicalize_snd l h.2, invCount_eq_zero h.1]
    have hd : l.count '-' / 2 = 0 := by
      rw [canonical_count h]
      by_cases hc : '-' ∈ l
      · simp [hc]
      · simp [hc]
    rw [hd]
    rfl
  calc canonicalize l = ((canonicalize l).1, (canonicalize l).2) := rfl
    _ = (l, 1) := by rw [hfst, hsnd]

theorem canonical_canonicalize_fst (s : List Char) : Canonical (canonicalize s).1 := by
  rw [canonicalize_fst]
  exact ⟨List.Pairwise.filter _ axes_pairwise, fun c hc => List.mem_of_mem_filter hc⟩

theorem Canonical.sublist {l : List Char} (h : Canonical l) : l.Sublist AXES := by
  have heq := filter_mem_eq_of_canonical AXES l axes_pairwise h.1 h.2
  rw [← heq]
  exact List.filter_sublist AXES

theorem sum_map_add {α : Type} (f g : α → Nat) : ∀ l : List α,
    (l.map (fun x => f x + g x)).sum = (l.map f).sum + (l.map g).sum := by
  intro l
  induction l with
  | nil => rfl
  | cons x r ih =>
    simp only [List.map_cons, List.sum_cons, ih]
    omega

theorem sum_map_pick (g : Char → Nat) : ∀ al : List Char, al.Nodup → ∀ x ∈ al,
    (al.map (fun c => (if x = c then 1 else 0) * g c)).sum = g x := by
  intro al
  induction al with
  | nil => intro _ x hx; cases hx
  | cons a al2 ih =>
    intro hnd x hx
    have ha2 : a ∉ al2 := (List.nodup_cons.1 hnd).1
    simp only [List.map_cons, List.sum_cons]
    rcases List.mem_cons.1 hx with rfl | hx2
    · rw [if_pos rfl, one_mul]
      have hz : (al2.map (fun c => (if x = c then 1 else 0) * g c)).sum = 0 := by
        refine List.sum_eq_zero ?_
        intro n hn
        rcases List.mem_map.1 hn with ⟨c, hc, rfl⟩
        have : ¬x = c := fun he => ha2 (he ▸ hc)
        simp [this]
      omega
    · have hxa : ¬x = a := by
        intro he
        exact ha2 (he ▸ hx2)
      rw [if_neg hxa, zero_mul, ih (List.nodup_cons.1 hnd).2 x hx2]
      omega

theorem sum_map_group (g : Char → Nat) (al : List Char) (hnd : al.Nodup) :
    ∀ s : List Char, (∀ y ∈ s, y ∈ al) →
    (s.map g).sum = (al.map (fun c => s.count c * g c)).sum := by
  intro s
  induction s with
  | nil =>
    intro _
    refine (List.sum_eq_zero ?_).symm
    intro n hn
    rcases List.mem_map.1 hn with ⟨c, hc, rfl⟩
    simp
  | cons x s2 ih =>
    intro h
    have hx : x ∈ al := h x (List.mem_cons_self x s2)
    have hcnt : ∀ c : Char, (x :: s2).count c = s2.count c + if x = c then 1 else 0 := by
      intro c
      rw [List.count_cons]
      by_cases hxc : x = c
      · simp [hxc]
      · have : (x == c) = false := by simpa using hxc
        simp [this, hxc]
    simp only [List.map_cons, List.sum_cons]
    rw [ih (fun y hy => h y (List.mem_cons_of_mem _ hy))]
    have hsplit : (al.map (fun c => (x :: s2).count c * g c)).sum =
        (al.map (fun c => s2.count c * g c)).sum +
        (al.map (fun c => (if x = c then 1 else 0) * g c)).sum := by
      rw [← sum_map_add]
      refine congrArg List.sum (List.map_congr_left ?_)
      intro c _
      rw [hcnt c, Nat.add_mul]
    rw [hsplit, sum_map_pick g al hnd x hx]
    omega

theorem countP_eq_sum_map (p : Char → Bool) : ∀ l : List Char,
    l.countP p = (l.map (fun y => if p y then 1 else 0)).sum := by
  intro l
  induction l with
  | nil => rfl
  | cons x r ih =>
    rw [List.countP_cons, List.map_cons, List.sum_cons, ih]
    omega

theorem sum_map_mod2 {α : Type} (l : List α) (f f2 : α → Nat)
    (h : ∀ c ∈ l, f c % 2 = f2 c % 2) :
    (l.map f).sum % 2 = (l.map f2).sum % 2 := by
  induction l with
  | nil => rfl
  | cons x r ih =>
    simp only [List.map_cons, List.sum_cons]
    have h1 := h x (List.mem_cons_self x r)
    have h2 := ih (fun c hc => h c (List.mem_cons_of_mem _ hc))
    omega

theorem cross_nil (t : List Char) : cross [] t = 0 := rfl

theorem cross_cons (x : Char) (s t : List Char) :
    cross (x :: s) t = t.countP (fun y => decide (idxA y < idxA x)) + cross s t := by
  simp [cross]

theorem invCount_append : ∀ s t : List Char,
    invCount (s ++ t) = invCount s + invCount t + cross s t := by
  intro s
  induction s with
  | nil =>
    intro t
    simp [invCount, cross_nil]
  | cons x s2 ih =>
    intro t
    rw [List.cons_append, invCount_cons, List.countP_append, invCount_cons, cross_cons, ih]
    omega

theorem count_canonicalize (s : List Char) {c : Char} (hc : c ∈ AXES) :
    ((canonicalize s).1).count c = s.count c % 2 := by
  rw [canonicalize_fst]
  have hnd : AXES.Nodup := by decide
  have hnodupf : (AXES.filter (fun c => decide (s.count c % 2 = 1))).Nodup :=
    hnd.filter _
  by_cases hm : s.count c % 2 = 1
  · have hcf : c ∈ AXES.filter (fun c => decide (s.count c % 2 = 1)) :=
      List.mem_filter.2 ⟨hc, by simpa using hm⟩
    rw [List.count_eq_one_of_mem hnodupf hcf, hm]
  · have hcf : c ∉ AXES.filter (fun c => decide (s.count c % 2 = 1)) := by
      intro hmem
      exact hm (by simpa using (List.mem_filter.1 hmem).2)
    rw [List.count_eq_zero_of_not_mem hcf]
    omega

theorem cross_mod2_left {s s1 t : List Char} (hs : ∀ y ∈ s, y ∈ AXES)
    (hs1 : ∀ y ∈ s1, y ∈ AXES)
    (hcnt : ∀ c ∈ AXES, s1.count c % 2 = s.count c % 2) :
    cross s1 t % 2 = cross s t % 2 := by
  have hnd : AXES.Nodup := by decide
  unfold cross
  rw [sum_map_group _ AXES hnd s1 hs1, sum_map_group _ AXES hnd s hs]
  apply sum_map_mod2
  intro c hc
  have h1 : Nat.ModEq 2 (s1.count c) (s.count c) := hcnt c hc
  exact h1.mul_right _

theorem cross_mod2_right {s t t1 : List Char} (ht : ∀ y ∈ t, y ∈ AXES)
    (ht1 : ∀ y ∈ t1, y ∈ AXES)
    (hcnt : ∀ c ∈ AXES, t1.count c % 2 = t.count c % 2) :
    cross s t1 % 2 = cross s t % 2 := by
  have hnd : AXES.Nodup := by decide
  unfold cross
  apply sum_map_mod2
  intro x _
  rw [countP_eq_sum_map, countP_eq_sum_map,
    sum_map_group _ AXES hnd t1 ht1, sum_map_group _ AXES hnd t ht]
  apply sum_map_mod2
  intro c hc
  have h1 : Nat.ModEq 2 (t1.count c) (t.count c) := hcnt c hc
  exact h1.mul_right _

theorem neg_one_pow_congr {m n : Nat} (h : m % 2 = n % 2) :
    ((-1 : ℤ)) ^ m = (-1) ^ n := by
  rw [neg_one_pow_ite, neg_one_pow_ite, h]

theorem onlyAxes_canonicalize (s : List Char) : ∀ c ∈ (canonicalize s).1, c ∈ AXES :=
  (canonical_canonicalize_fst s).2

/-- Canonicalizing a product may canonicalize its left factor first: the label
agrees and the left factor's sign splits off multiplicatively. -/
theorem canon_append_left (s t : List Char) (hs : ∀ c ∈ s, c ∈ AXES)
    (ht : ∀ c ∈ t, c ∈ AXES) :
    canonicalize (s ++ t) =
      ((canonicalize ((canonicalize s).1 ++ t)).1,
       (canonicalize s).2 * (canonicalize ((canonicalize s).1 ++ t)).2) := by
  have hs1 := onlyAxes_canonicalize s
  have hst : ∀ c ∈ s ++ t, c ∈ AXES := by
    intro c hc
    rcases List.mem_append.1 hc with h | h
    · exact hs c h
    · exact ht c h
  have hs1t : ∀ c ∈ (canonicalize s).1 ++ t, c ∈ AXES := by
    intro c hc
    rcases List.mem_append.1 hc with h | h
    · exact hs1 c h
    · exact ht c h
  have hcnt : ∀ c ∈ AXES, ((canonicalize s).1).count c % 2 = s.count c % 2 := by
    intro c hc
    rw [count_canonicalize s hc]
    omega
  refine Prod.ext ?_ ?_
  · rw [canonicalize_fst, canonicalize_fst]
    apply List.filter_congr
    intro c hc
    have h1 : ((canonicalize s).1 ++ t).count c % 2 = (s ++ t).count c % 2 := by
      rw [List.count_append, List.count_append]
      have := hcnt c hc
      omega
    rw [h1]
  · rw [canonicalize_snd _ hst, canonicalize_snd _ hs1t, canonicalize_snd _ hs,
      ← pow_add]
    apply neg_one_pow_congr
    have hia := invCount_append s t
    have hia1 := invCount_append (canonicalize s).1 t
    have hz : invCount (canonicalize s).1 = 0 :=
      invCount_eq_zero (canonical_canonicalize_fst s).1
    have hcross : cross (canonicalize s).1 t % 2 = cross s t % 2 :=
      cross_mod2_left hs hs1 hcnt
    have hdash : ((canonicalize s).1).count '-' = s.count '-' % 2 :=
      count_canonicalize s (by decide)
    rw [List.count_append, List.count_append, hia, hia1, hz, hdash]
    omega

/-- Canonicalizing a product may canonicalize its right factor first: the label
agrees and the right factor's sign splits off multiplicatively. -/
theorem canon_append_right (s t : List Char) (hs : ∀ c ∈ s, c ∈ AXES)
    (ht : ∀ c ∈ t, c ∈ AXES) :
    canonicalize (s ++ t) =
      ((canonicalize (s ++ (canonicalize t).1)).1,
       (canonicalize t).2 * (canonicalize (s ++ (canonicalize t).1)).2) := by
  have ht1 := onlyAxes_canonicalize t
  have hst : ∀ c ∈ s ++ t, c ∈ AXES := by
    intro c hc
    rcases List.mem_append.1 hc with h | h
    · exact hs c h
    · exact ht c h
  have hst1 : ∀ c ∈ s ++ (canonicalize t).1, c ∈ AXES := by
    intro c hc
    rcases List.mem_append.1 hc with h | h
    · exact hs c h
    · exact ht1 c h
  have hcnt : ∀ c ∈ AXES, ((canonicalize t).1).count c % 2 = t.count c % 2 := by
    intro c hc
    rw [count_canonicalize t hc]
    omega
  refine Prod.ext ?_ ?_
  · rw [canonicalize_fst, canonicalize_fst]
    apply List.filter_congr
    intro c hc
    have h1 : (s ++ (canonicalize t).1).count c % 2 = (s ++ t).count c % 2 := by
      rw [List.count_append, List.count_append]
      have := hcnt c hc
      omega
    rw [h1]
  · rw [canonicalize_snd _ hst, canonicalize_snd _ hst1, canonicalize_snd _ ht,
      ← pow_add]
    apply neg_one_pow_congr
    have hia := invCount_append s t
    have hia1 := invCount_append s (canonicalize t).1
    have hz : invCount (canonicalize t).1 = 0 :=
      invCount_eq_zero (canonical_canonicalize_fst t).1
    have hcross : cross s (canonicalize t).1 % 2 = cross s t % 2 :=
      cross_mod2_right ht ht1 hcnt
    have hdash : ((canonicalize t).1).count '-' = t.count '-' % 2 :=
      count_canonicalize t (by decide)
    rw [List.count_append, List.count_append, hia, hia1, hz, hdash]
    omega

theorem invCount_replicate (a : Char) : ∀ k : Nat, invCount (List.replicate k a) = 0 := by
  intro k
  induction k with
  | zero => rfl
  | succ n ih =>
    rw [List.replicate_succ, invCount_cons, ih]
    have h0 : (List.replicate n a).countP (fun y => decide (idxA y < idxA a)) = 0 := by
      rw [List.countP_eq_zero]
      intro y hy
      rcases List.eq_of_mem_replicate hy with rfl
      simp
    rw [h0]

theorem filter_eq_singleton {a : Char} : ∀ al : List Char, al.Nodup → a ∈ al →
    al.filter (fun c => decide (c = a)) = [a] := by
  intro al
  induction al with
  | nil => intro _ h; cases h
  | cons b al2 ih =>
    intro hnd hm
    have hb2 := (List.nodup_cons.1 hnd).1
    by_cases hba : b = a
    · subst hba
      rw [List.filter_cons]
      have hbb : decide (b = b) = true := by simp
      rw [hbb]
      simp only [if_true]
      have hnil : al2.filter (fun c => decide (c = b)) = [] := by
        rw [List.filter_eq_nil_iff]
        intro c hc
        simp only [decide_eq_true_eq]
        exact fun he => hb2 (he ▸ hc)
      rw [hnil]
    · rw [List.filter_cons]
      have hd : decide (b = a) = false := by simpa using hba
      rw [hd]
      simp only [Bool.false_eq_true, if_false]
      refine ih (List.nodup_cons.1 hnd).2 ?_
      rcases List.mem_cons.1 hm with he | h2
      · exact absurd he.symm hba
      · exact h2

/-- C7: on every input sequence of axis symbols drawn from the alphabet
`- + x y z` (repeats allowed, any order), `canonicalize` returns a canonical
label - axes strictly increasing in the fixed order, no repeated axis - and a
sign that is exactly +1 or -1. -/
theorem C7_canonicalize_output_canonical (s : List Char) (h : ∀ c ∈ s, c ∈ AXES) :
    Canonical (canonicalize s).1 ∧
      ((canonicalize s).2 = 1 ∨ (canonicalize s).2 = -1) := by
  refine ⟨canonical_canonicalize_fst s, ?_⟩
  rw [canonicalize_snd s h]
  rcases Nat.even_or_odd (invCount s + s.count '-' / 2) with he | ho
  · exact Or.inl (Even.neg_one_pow he)
  · exact Or.inr (Odd.neg_one_pow ho)

/-- Witness for C7 at the concrete input z-x-. -/
theorem C7_canonicalize_output_canonical_witness :
    (∀ c ∈ ['z', '-', 'x', '-'], c ∈ AXES) ∧
      (Canonical (canonicalize ['z', '-', 'x', '-']).1 ∧
        ((canonicalize ['z', '-', 'x', '-']).2 = 1 ∨
          (canonicalize ['z', '-', 'x', '-']).2 = -1)) :=
  ⟨by decide, C7_canonicalize_output_canonical _ (by decide)⟩

/-- C8: `canonicalize` on k copies (k at least 3) of one single axis symbol a
returns the empty label when k is even and the one-symbol label when k is odd,
with sign (-1) to the floor of k/2 when a is the negative-square axis and +1
for every other axis. -/
theorem C8_canonicalize_repeated_axis (a : Char) (k : Nat) (ha : a ∈ AXES)
    (hk : 3 ≤ k) :
    canonicalize (List.replicate k a) =
      ((if k % 2 = 0 then [] else [a]),
       (if a = '-' then (-1 : ℤ) ^ (k / 2) else 1)) := by
  have hcnt : ∀ c : Char, (List.replicate k a).count c = if a = c then k else 0 := by
    intro c
    rw [List.count_replicate]
    by_cases h : a = c
    · have hb : (a == c) = true := by simpa using h
      rw [hb, if_pos h]
      rfl
    · have hb : (a == c) = false := by simpa using h
      rw [hb, if_neg h]
      rfl
  refine Prod.ext ?_ ?_
  · rw [canonicalize_fst]
    rcases Nat.mod_two_eq_zero_or_one k with h2 | h2
    · rw [if_pos h2, List.filter_eq_nil_iff]
      intro c _
      rw [hcnt c]
      by_cases hac : a = c
      · rw [if_pos hac]
        simp only [decide_eq_true_eq]
        omega
      · rw [if_neg hac]
        simp
    · rw [if_neg (by omega)]
      have hcong : AXES.filter (fun c => decide ((List.replicate k a).count c % 2 = 1)) =
          AXES.filter (fun c => decide (c = a)) := by
        apply List.filter_congr
        intro c _
        rw [hcnt c]
        by_cases hac : a = c
        · subst hac
          simp [h2]
        · have hca : ¬(c = a) := fun he => hac he.symm
          simp [hac, hca]
      rw [hcong]
      exact filter_eq_singleton AXES (by decide) ha
  · rw [canonicalize_snd _ (fun c hc => by
      rcases List.eq_of_mem_replicate hc with rfl; exact ha)]
    rw [invCount_replicate a k, hcnt '-']
    by_cases hd : a = '-'
    · rw [if_pos hd, if_pos hd, Nat.zero_add]
    · rw [if_neg hd, if_neg hd]
      norm_num

/-- Witness for C8 at five copies of the negative-square axis. -/
theorem C8_canonicalize_repeated_axis_witness :
    ('-' ∈ AXES ∧ 3 ≤ 5) ∧
      canonicalize (List.replicate 5 '-') =
        ((if 5 % 2 = 0 then [] else ['-']),
         (if '-' = '-' then (-1 : ℤ) ^ (5 / 2) else 1)) :=
  ⟨by decide, C8_canonicalize_repeated_axis '-' 5 (by decide) (by decide)⟩

/-- C1: for every pair of distinct single-axis basis blades of the generator
restricted to 3 spatial dimensions (axes m p x y z), the term of the 1x1
outer-product kernel - result label and sign from `multiply_axes` - is grade 2
(hence kept by the kernel) and equals, under the fixed alphabet translation,
the blade produced by the symbolic engine's `canonicalize` on the
concatenation (which grade-projection to 2 keeps as well). -/
theorem C1_wedge_kernel_matches_symbolic (a b : List Char)
    (ha : a ∈ components 1) (hb : b ∈ components 1) (hab : a ≠ b) :
    multiply_axes a b = Except.ok
      ((canonicalize (a.map toCga ++ b.map toCga)).1.map toGen,
        (canonicalize (a.map toCga ++ b.map toCga)).2) ∧
      ((canonicalize (a.map toCga ++ b.map toCga)).1).length = 2 := by
  have h : ∀ x ∈ components 1, ∀ y ∈ components 1, x ≠ y →
      (multiply_axes x y = Except.ok
        ((canonicalize (x.map toCga ++ y.map toCga)).1.map toGen,
          (canonicalize (x.map toCga ++ y.map toCga)).2) ∧
        ((canonicalize (x.map toCga ++ y.map toCga)).1).length = 2) := by decide
  exact h a ha b hb hab

/-- Witness for C1 at the axis pair (m, p). -/
theorem C1_wedge_kernel_matches_symbolic_witness :
    (['m'] ∈ components 1 ∧ ['p'] ∈ components 1 ∧ (['m'] : List Char) ≠ ['p']) ∧
      (multiply_axes ['m'] ['p'] = Except.ok
        ((canonicalize (['m'].map toCga ++ ['p'].map toCga)).1.map toGen,
          (canonicalize (['m'].map toCga ++ ['p'].map toCga)).2) ∧
        ((canonicalize (['m'].map toCga ++ ['p'].map toCga)).1).length = 2) :=
  ⟨⟨by decide, by decide, by decide⟩,
    C1_wedge_kernel_matches_symbolic ['m'] ['p'] (by decide) (by decide) (by decide)⟩

/-- C10: on every pair of canonical blade labels over the generator's first
five axes (strictly increasing subsequences of m p x y z), `multiply_axes`
returns normally with a sign of exactly +1 or -1: the defensive MalformedBlade
branch is unreachable. -/
theorem C10_multiply_axes_total_on_canonical (a b : List Char)
    (ha : a.Sublist (GAXES.take (NDIM + 2))) (hb : b.Sublist (GAXES.take (NDIM + 2))) :
    ∃ p : List Char × Int, multiply_axes a b = Except.ok p ∧ (p.2 = 1 ∨ p.2 = -1) := by
  have h : ∀ x ∈ (GAXES.take (NDIM + 2)).sublists,
      ∀ y ∈ (GAXES.take (NDIM + 2)).sublists, okSignPM (multiply_axes x y) := by decide
  exact h a (List.mem_sublists.2 ha) b (List.mem_sublists.2 hb)

/-- Witness for C10 at the blades mx and pxz. -/
theorem C10_multiply_axes_total_on_canonical_witness :
    ((['m', 'x'] : List Char).Sublist (GAXES.take (NDIM + 2)) ∧
      (['p', 'x', 'z'] : List Char).Sublist (GAXES.take (NDIM + 2))) ∧
      ∃ p : List Char × Int, multiply_axes ['m', 'x'] ['p', 'x', 'z'] = Except.ok p ∧
        (p.2 = 1 ∨ p.2 = -1) :=
  ⟨⟨by decide, by decide⟩,
    C10_multiply_axes_total_on_canonical ['m', 'x'] ['p', 'x', 'z']
      (by decide) (by decide)⟩

/-- C9: the polynomial reciprocal succeeds exactly when the stored dict is a
single constant term with nonzero coefficient c (returning the constant 1/c),
and fails with `NotInvertible` on an empty dict, on two or more stored terms,
and on a single stored term whose variable key is non-empty. -/
theorem C9_recip_success_and_failure (e : ScalarExpr) :
    (∀ r : ScalarExpr, e.recip = Except.ok r ↔
      ∃ c : ℚ, c ≠ 0 ∧ e.terms = [([], c)] ∧ r = ScalarExpr.ofNum (1 / c)) ∧
    (e.terms = [] → e.recip = Except.error PyError.notInvertible) ∧
    (2 ≤ e.terms.length → e.recip = Except.error PyError.notInvertible) ∧
    (∀ k v, e.terms = [(k, v)] → k ≠ [] →
      e.recip = Except.error PyError.notInvertible) := by
  obtain ⟨ts⟩ := e
  rcases ts with _ | ⟨⟨k, v⟩, _ | ⟨q, rest2⟩⟩
  · refine ⟨?_, fun _ => rfl, fun _ => rfl, ?_⟩
    · intro r
      constructor
      · intro h
        exact absurd h (by simp [ScalarExpr.recip])
      · rintro ⟨c, hc, hts, hr⟩
        exact absurd hts (by simp)
    · intro k v h
      exact absurd h (by simp)
  · have hrec : ScalarExpr.recip ⟨[(k, v)]⟩ =
        if k = [] then (if v = 0 then Except.error PyError.zeroDivisionError
          else Except.ok (ScalarExpr.ofNum (1 / v)))
        else Except.error PyError.notInvertible := rfl
    refine ⟨?_, ?_, ?_, ?_⟩
    · intro r
      constructor
      · intro h
        rw [hrec] at h
        by_cases hk : k = []
        · rw [if_pos hk] at h
          by_cases hv : v = 0
          · rw [if_pos hv] at h
            cases h
          · rw [if_neg hv] at h
            injection h with h1
            subst hk
            exact ⟨v, hv, rfl, h1.symm⟩
        · rw [if_neg hk] at h
          cases h
      · rintro ⟨c, hc, hts, hr⟩
        injection hts with h1 h2
        injection h1 with hk0 hv0
        have hvc : v ≠ 0 := by
          rw [hv0]
          exact hc
        rw [hrec, if_pos hk0, if_neg hvc, hr, hv0]
    · intro h
      exact absurd h (by simp)
    · intro h
      simp at h
    · intro k2 v2 h hk2
      injection h with h1 h2
      injection h1 with hk0 hv0
      rw [hrec, if_neg (hk0 ▸ hk2)]
  · have hrec : ScalarExpr.recip ⟨(k, v) :: q :: rest2⟩ =
        Except.error PyError.notInvertible := rfl
    refine ⟨?_, fun _ => rfl, fun _ => rfl, fun _ _ _ _ => rfl⟩
    intro r
    constructor
    · intro h
      rw [hrec] at h
      cases h
    · rintro ⟨c, hc, hts, hr⟩
      injection hts with h1 h2
      exact absurd h2 (by simp)

/-- Witness for C9 at the constant polynomial 3. -/
theorem C9_recip_success_and_failure_witness :
    (ScalarExpr.ofNum 3).recip = Except.ok (ScalarExpr.ofNum (1 / 3)) := by
  have h := (C9_recip_success_and_failure (ScalarExpr.ofNum 3)).1
    (ScalarExpr.ofNum (1 / 3))
  refine h.2 ⟨3, by norm_num, ?_, rfl⟩
  norm_num [ScalarExpr.ofNum, ScalarExpr.init, addToItems, sortKey]

/-- C2 is violated by the code: multiplying a+b by a-b stores the sorted key
(a, b) with coefficient exactly zero, because `__init__` filters zero input
coefficients before accumulating under the sorted key, so the two opposite
cross terms ab and ba cancel into a stored zero entry. -/
theorem C2_mul_stores_zero_coefficient :
    (((ScalarExpr.ofVar "a").add (ScalarExpr.ofVar "b")).mul
        ((ScalarExpr.ofVar "a").sub (ScalarExpr.ofVar "b"))).terms =
      [(["a", "a"], 1), (["a", "b"], 0), (["b", "b"], -1)] ∧
    (["a", "b"], (0 : ℚ)) ∈
      (((ScalarExpr.ofVar "a").add (ScalarExpr.ofVar "b")).mul
        ((ScalarExpr.ofVar "a").sub (ScalarExpr.ofVar "b"))).terms := by
  have h : (((ScalarExpr.ofVar "a").add (ScalarExpr.ofVar "b")).mul
      ((ScalarExpr.ofVar "a").sub (ScalarExpr.ofVar "b"))).terms =
      [(["a", "a"], 1), (["a", "b"], 0), (["b", "b"], -1)] := by
    norm_num +decide [ScalarExpr.mul, ScalarExpr.add, ScalarExpr.sub, ScalarExpr.neg,
      ScalarExpr.smul, ScalarExpr.ofVar, ScalarExpr.init,
      addToItems, sortKey, insertSorted]
  exact ⟨h, by rw [h]; simp⟩

theorem toPolyItems_nil : toPolyItems [] = 0 := rfl

theorem toPolyItems_cons (p : List String × ℚ) (rest : List (List String × ℚ)) :
    toPolyItems (p :: rest) =
      AddMonoidAlgebra.single ((p.1 : Multiset String)) p.2 + toPolyItems rest := by
  simp [toPolyItems]

theorem constP_mul (a b : ℚ) : constP a * constP b = constP (a * b) := by
  unfold constP
  rw [AddMonoidAlgebra.single_mul_single, add_zero]

theorem constP_one : constP 1 = 1 := AddMonoidAlgebra.one_def.symm

theorem constP_neg (a : ℚ) : constP (-a) = -constP a := by
  unfold constP
  simp

theorem toPolyItems_addToItems (k : List String) (v : ℚ) : ∀ its,
    toPolyItems (addToItems 0 k v its) =
      toPolyItems its + AddMonoidAlgebra.single ((k : Multiset String)) v := by
  intro its
  induction its with
  | nil => simp [addToItems, toPolyItems]
  | cons p rest ih =>
    by_cases hpk : p.1 = k
    · rw [show addToItems 0 k v (p :: rest) = (p.1, p.2 + v) :: rest from by
        simp [addToItems, hpk]]
      rw [toPolyItems_cons, toPolyItems_cons]
      show AddMonoidAlgebra.single ((p.1 : Multiset String)) (p.2 + v) + toPolyItems rest = _
      rw [AddMonoidAlgebra.single_add, hpk]
      abel
    · rw [show addToItems 0 k v (p :: rest) = p :: addToItems 0 k v rest from by
        simp [addToItems, hpk]]
      rw [toPolyItems_cons, toPolyItems_cons, ih, add_assoc]

theorem toPolyItems_accumulate : ∀ (bs : List (List String × ℚ)) d,
    toPolyItems (bs.foldl (fun d p => addToItems 0 p.1 p.2 d) d) =
      toPolyItems d + toPolyItems bs := by
  intro bs
  induction bs with
  | nil => intro d; simp [toPolyItems]
  | cons p rest ih =>
    intro d
    rw [List.foldl_cons, ih, toPolyItems_addToItems, toPolyItems_cons]
    abel

theorem insertSorted_perm (a : String) : ∀ l, (insertSorted a l).Perm (a :: l) := by
  intro l
  induction l with
  | nil => exact List.Perm.refl _
  | cons b rest ih =>
    by_cases hab : a ≤ b
    · rw [insertSorted, if_pos hab]
    · rw [insertSorted, if_neg hab]
      exact (ih.cons b).trans (List.Perm.swap a b rest)

theorem sortKey_perm : ∀ k, (sortKey k).Perm k := by
  intro k
  induction k with
  | nil => exact List.Perm.refl _
  | cons a rest ih =>
    exact (insertSorted_perm a (sortKey rest)).trans (ih.cons a)

theorem coe_sortKey (k : List String) :
    ((sortKey k : List String) : Multiset String) = (k : Multiset String) :=
  Multiset.coe_eq_coe.2 (sortKey_perm k)

theorem toPolyItems_init_fold : ∀ (ts : List (List String × ℚ)) d,
    toPolyItems (ts.foldl
      (fun d p => if p.2 ≠ 0 then addToItems 0 (sortKey p.1) p.2 d else d) d) =
      toPolyItems d + toPolyItems ts := by
  intro ts
  induction ts with
  | nil => intro d; simp [toPolyItems]
  | cons p rest ih =>
    intro d
    rw [List.foldl_cons]
    by_cases hp : p.2 = 0
    · rw [if_neg (fun h => h hp), ih, toPolyItems_cons, hp, AddMonoidAlgebra.single_zero]
      abel
    · rw [if_pos hp, ih, toPolyItems_addToItems, toPolyItems_cons, coe_sortKey]
      abel

theorem toPoly_init (ts : List (List String × ℚ)) :
    toPoly (ScalarExpr.init ts) = toPolyItems ts := by
  show toPolyItems (ts.foldl
    (fun d p => if p.2 ≠ 0 then addToItems 0 (sortKey p.1) p.2 d else d) []) = toPolyItems ts
  rw [toPolyItems_init_fold ts []]
  simp [toPolyItems]

theorem toPolyItems_mul_inner (k1 : List String) (c1 : ℚ) :
    ∀ (bs : List (List String × ℚ)) d,
    toPolyItems (bs.foldl (fun d p2 => addToItems 0 (k1 ++ p2.1) (c1 * p2.2) d) d) =
      toPolyItems d + AddMonoidAlgebra.single ((k1 : Multiset String)) c1 * toPolyItems bs := by
  intro bs
  induction bs with
  | nil => intro d; simp [toPolyItems]
  | cons p2 rest ih =>
    intro d
    rw [List.foldl_cons, ih, toPolyItems_addToItems, toPolyItems_cons]
    have hsm : AddMonoidAlgebra.single (((k1 ++ p2.1 : List String) : Multiset String))
        (c1 * p2.2) =
        AddMonoidAlgebra.single ((k1 : Multiset String)) c1 *
          AddMonoidAlgebra.single ((p2.1 : Multiset String)) p2.2 := by
      rw [AddMonoidAlgebra.single_mul_single, Multiset.coe_add]
    rw [hsm]
    ring

theorem toPolyItems_mul_outer (bs : List (List String × ℚ)) :
    ∀ (as : List (List String × ℚ)) d,
    toPolyItems (as.foldl (fun d p1 =>
        bs.foldl (fun d p2 => addToItems 0 (p1.1 ++ p2.1) (p1.2 * p2.2) d) d) d) =
      toPolyItems d + toPolyItems as * toPolyItems bs := by
  intro as
  induction as with
  | nil => intro d; simp [toPolyItems]
  | cons p1 rest ih =>
    intro d
    rw [List.foldl_cons, ih, toPolyItems_mul_inner p1.1 p1.2 bs d, toPolyItems_cons]
    ring

theorem toPoly_mul (a b : ScalarExpr) : toPoly (a.mul b) = toPoly a * toPoly b := by
  show toPoly (ScalarExpr.init _) = _
  rw [toPoly_init, toPolyItems_mul_outer b.terms a.terms []]
  show 0 + toPolyItems a.terms * toPolyItems b.terms = _
  rw [zero_add]
  rfl

theorem toPolyItems_filter_ne_zero : ∀ its : List (List String × ℚ),
    toPolyItems (its.filter (fun p => decide (p.2 ≠ 0))) = toPolyItems its := by
  intro its
  induction its with
  | nil => rfl
  | cons p rest ih =>
    rw [List.filter_cons]
    by_cases hp : p.2 = 0
    · have hd : decide (p.2 ≠ 0) = false := by simp [hp]
      rw [hd]
      simp only [Bool.false_eq_true, if_false]
      rw [ih, toPolyItems_cons, hp, AddMonoidAlgebra.single_zero, zero_add]
    · have hd : decide (p.2 ≠ 0) = true := by simpa using hp
      rw [hd]
      simp only [if_true]
      rw [toPolyItems_cons, toPolyItems_cons, ih]

theorem toPoly_add (a b : ScalarExpr) : toPoly (a.add b) = toPoly a + toPoly b := by
  show toPoly (ScalarExpr.init _) = _
  rw [toPoly_init, toPolyItems_filter_ne_zero, toPolyItems_accumulate b.terms a.terms]
  rfl

theorem toPoly_add_inst (a b : ScalarExpr) : toPoly (a + b) = toPoly a + toPoly b :=
  toPoly_add a b

theorem toPolyItems_map_smul (q : ℚ) : ∀ its : List (List String × ℚ),
    toPolyItems (its.map (fun p => (p.1, p.2 * q))) = toPolyItems its * constP q := by
  intro its
  induction its with
  | nil => simp [toPolyItems]
  | cons p rest ih =>
    rw [List.map_cons, toPolyItems_cons, toPolyItems_cons, ih]
    show AddMonoidAlgebra.single ((p.1 : Multiset String)) (p.2 * q) + _ = _
    have hsm : AddMonoidAlgebra.single ((p.1 : Multiset String)) (p.2 * q) =
        AddMonoidAlgebra.single ((p.1 : Multiset String)) p.2 * constP q := by
      unfold constP
      rw [AddMonoidAlgebra.single_mul_single, add_zero]
    rw [hsm]
    ring

theorem toPoly_smul (a : ScalarExpr) (q : ℚ) :
    toPoly (a.smul q) = toPoly a * constP q := by
  show toPoly (ScalarExpr.init _) = _
  rw [toPoly_init, toPolyItems_map_smul]
  rfl

theorem toPoly_SE0 : toPoly SE0 = 0 := rfl

theorem toPoly_ofNum (q : ℚ) : toPoly (ScalarExpr.ofNum q) = constP q := by
  show toPoly (ScalarExpr.init _) = _
  rw [toPoly_init, toPolyItems_cons, toPolyItems_nil, add_zero]
  unfold constP
  rw [show ((([] : List String) : Multiset String)) = 0 from Multiset.coe_nil]

theorem toPoly_of_nonzero_false {a : ScalarExpr} (h : a.nonzero = false) :
    toPoly a = 0 := by
  unfold ScalarExpr.nonzero at h
  rw [List.any_eq_false] at h
  refine List.sum_eq_zero ?_
  intro x hx
  rcases List.mem_map.1 hx with ⟨p, hp, rfl⟩
  have hz : p.2 = 0 := by
    have := h p hp
    simpa using this
  rw [hz, AddMonoidAlgebra.single_zero]

theorem mdenItems_nil (l : List Char) : mdenItems [] l = 0 := rfl

theorem mdenItems_cons (p : List Char × ScalarExpr) (rest : List (List Char × ScalarExpr))
    (l : List Char) :
    mdenItems (p :: rest) l = (if p.1 = l then toPoly p.2 else 0) + mdenItems rest l := by
  simp [mdenItems]

theorem mdenItems_addToItems (k : List Char) (v : ScalarExpr) (l : List Char) : ∀ its,
    mdenItems (addToItems SE0 k v its) l =
      mdenItems its l + (if k = l then toPoly v else 0) := by
  intro its
  induction its with
  | nil =>
    rw [show addToItems SE0 k v [] = [(k, SE0 + v)] from rfl]
    rw [mdenItems_cons, mdenItems_nil]
    have hT : toPoly (SE0 + v) = toPoly v := by
      rw [toPoly_add_inst, toPoly_SE0, zero_add]
    show (if k = l then toPoly (SE0 + v) else 0) + 0 = 0 + (if k = l then toPoly v else 0)
    rw [hT, add_zero, zero_add]
  | cons p rest ih =>
    by_cases hpk : p.1 = k
    · rw [show addToItems SE0 k v (p :: rest) = (p.1, p.2 + v) :: rest from by
        simp [addToItems, hpk]]
      rw [mdenItems_cons, mdenItems_cons]
      by_cases hkl : k = l
      · have hpl : p.1 = l := hpk.trans hkl
        rw [if_pos hpl, if_pos hpl, if_pos hkl]
        show toPoly (p.2 + v) + mdenItems rest l = _
        rw [toPoly_add_inst]
        ring
      · have hpl : ¬p.1 = l := fun h => hkl (hpk.symm.trans h)
        rw [if_neg hpl, if_neg hpl, if_neg hkl]
        ring
    · rw [show addToItems SE0 k v (p :: rest) = p :: addToItems SE0 k v rest from by
        simp [addToItems, hpk]]
      rw [mdenItems_cons, mdenItems_cons, ih]
      ring

theorem mdenItems_accumulate (l : List Char) : ∀ (bs : List (List Char × ScalarExpr)) d,
    mdenItems (bs.foldl (fun d p => addToItems SE0 p.1 p.2 d) d) l =
      mdenItems d l + mdenItems bs l := by
  intro bs
  induction bs with
  | nil => intro d; simp [mdenItems]
  | cons p rest ih =>
    intro d
    rw [List.foldl_cons, ih, mdenItems_addToItems, mdenItems_cons]
    ring

theorem mdenItems_init_fold (l : List Char) : ∀ (ts : List (List Char × ScalarExpr)) d,
    mdenItems (ts.foldl (fun d p =>
      if p.2.nonzero then
        addToItems SE0 (canonicalize p.1).1 (p.2.smul (((canonicalize p.1).2 : ℚ))) d
      else d) d) l =
      mdenItems d l + (ts.map (fun p =>
        if (canonicalize p.1).1 = l then
          toPoly p.2 * constP (((canonicalize p.1).2 : ℚ)) else 0)).sum := by
  intro ts
  induction ts with
  | nil => intro d; simp
  | cons p rest ih =>
    intro d
    rw [List.foldl_cons, List.map_cons, List.sum_cons]
    by_cases hnz : p.2.nonzero
    · rw [if_pos hnz, ih, mdenItems_addToItems, toPoly_smul]
      ring
    · rw [if_neg hnz, ih]
      have hfalse : p.2.nonzero = false := by
        revert hnz
        cases p.2.nonzero
        · intro _; rfl
        · intro h; exact absurd rfl h
      rw [toPoly_of_nonzero_false hfalse, zero_mul, ite_self, zero_add]

theorem mden_init (ts : List (List Char × ScalarExpr)) (l : List Char) :
    mden (CgaExpr.init ts) l =
      (ts.map (fun p =>
        if (canonicalize p.1).1 = l then
          toPoly p.2 * constP (((canonicalize p.1).2 : ℚ)) else 0)).sum := by
  show mdenItems (ts.foldl (fun d p =>
      if p.2.nonzero then
        addToItems SE0 (canonicalize p.1).1 (p.2.smul (((canonicalize p.1).2 : ℚ))) d
      else d) []) l = _
  rw [mdenItems_init_fold l ts []]
  simp [mdenItems]

theorem mden_init_of_canonical {ts : List (List Char × ScalarExpr)}
    (h : ∀ p ∈ ts, Canonical p.1) (l : List Char) :
    mden (CgaExpr.init ts) l = mdenItems ts l := by
  rw [mden_init]
  unfold mdenItems
  refine congrArg List.sum (List.map_congr_left ?_)
  intro p hp
  rw [canon_of_canonical (h p hp)]
  show (if p.1 = l then toPoly p.2 * constP (((1 : ℤ) : ℚ)) else 0) = _
  rw [show (((1 : ℤ) : ℚ)) = 1 from by norm_num, constP_one, mul_one]

theorem mem_CLfin_of_canonical {l : List Char} (h : Canonical l) : l ∈ CLfin :=
  List.mem_toFinset.2 (List.mem_sublists.2 h.sublist)

theorem canonical_of_mem_CLfin {l : List Char} (h : l ∈ CLfin) : Canonical l := by
  have hs : l.Sublist AXES := List.mem_sublists.1 (List.mem_toFinset.1 h)
  exact ⟨List.Pairwise.sublist hs axes_pairwise, fun c hc => hs.subset hc⟩

theorem sum_group_CL (G : List Char → PolyQ → PolyQ)
    (hz : ∀ l, G l 0 = 0) (hadd : ∀ l x y, G l (x + y) = G l x + G l y) :
    ∀ its : List (List Char × ScalarExpr), (∀ p ∈ its, Canonical p.1) →
    (its.map (fun p => G p.1 (toPoly p.2))).sum = ∑ l ∈ CLfin, G l (mdenItems its l) := by
  intro its
  induction its with
  | nil =>
    intro _
    rw [List.map_nil, List.sum_nil]
    exact (Finset.sum_eq_zero (fun l _ => by rw [mdenItems_nil, hz])).symm
  | cons p rest ih =>
    intro h
    rw [List.map_cons, List.sum_cons, ih (fun q hq => h q (List.mem_cons_of_mem _ hq))]
    have hmem : p.1 ∈ CLfin :=
      mem_CLfin_of_canonical (h p (List.mem_cons_self p rest))
    have hsplit : ∀ l ∈ CLfin, G l (mdenItems (p :: rest) l) =
        G l (if p.1 = l then toPoly p.2 else 0) + G l (mdenItems rest l) :=
      fun l _ => by rw [mdenItems_cons, hadd]
    rw [Finset.sum_congr rfl hsplit, Finset.sum_add_distrib]
    refine congrArg₂ (· + ·) ?_ rfl
    rw [Finset.sum_eq_single_of_mem p.1 hmem (fun b _ hb => by
      rw [if_neg (fun he => hb he.symm), hz])]
    rw [if_pos rfl]

theorem mem_addToItems_keys {κ α : Type} [DecidableEq κ] [Add α] (dflt : α) (k : κ)
    (v : α) (its : List (κ × α)) {p : κ × α} (hp : p ∈ addToItems dflt k v its) :
    p.1 ∈ its.map Prod.fst ∨ p.1 = k := by
  have hmem : p.1 ∈ (addToItems dflt k v its).map Prod.fst := List.mem_map_of_mem _ hp
  rw [keys_addToItems] at hmem
  by_cases hk : k ∈ its.map Prod.fst
  · rw [if_pos hk] at hmem
    exact Or.inl hmem
  · rw [if_neg hk] at hmem
    rcases List.mem_append.1 hmem with h | h
    · exact Or.inl h
    · exact Or.inr (List.mem_singleton.1 h)

theorem keys_init_canonical (ts : List (List Char × ScalarExpr)) :
    ∀ p ∈ (CgaExpr.init ts).terms, Canonical p.1 := by
  suffices h : ∀ d : List (List Char × ScalarExpr), (∀ p ∈ d, Canonical p.1) →
      ∀ p ∈ ts.foldl (fun d p =>
        if p.2.nonzero then
          addToItems SE0 (canonicalize p.1).1 (p.2.smul (((canonicalize p.1).2 : ℚ))) d
        else d) d, Canonical p.1 by
    exact h [] (fun p hp => absurd hp (List.not_mem_nil p))
  induction ts with
  | nil => intro d hd; exact hd
  | cons q rest ih =>
    intro d hd
    rw [List.foldl_cons]
    apply ih
    by_cases hnz : q.2.nonzero
    · rw [if_pos hnz]
      intro p hp
      rcases mem_addToItems_keys _ _ _ _ hp with h | h
      · rcases List.mem_map.1 h with ⟨r, hr, hfst⟩
        exact hfst ▸ hd r hr
      · rw [h]
        exact canonical_canonicalize_fst q.1
    · rw [if_neg hnz]
      exact hd

theorem keys_cgamul_inner_canonical (k1 : List Char) (c1 : ScalarExpr) :
    ∀ (bs : List (List Char × ScalarExpr)) d, (∀ p ∈ d, Canonical p.1) →
    ∀ p ∈ bs.foldl (fun d p2 =>
      addToItems SE0 (canonicalize (k1 ++ p2.1)).1
        ((c1.mul p2.2).smul (((canonicalize (k1 ++ p2.1)).2 : ℚ))) d) d, Canonical p.1 := by
  intro bs
  induction bs with
  | nil => intro d hd; exact hd
  | cons p2 rest ih =>
    intro d hd
    rw [List.foldl_cons]
    apply ih
    intro p hp
    rcases mem_addToItems_keys _ _ _ _ hp with h | h
    · rcases List.mem_map.1 h with ⟨r, hr, hfst⟩
      exact hfst ▸ hd r hr
    · rw [h]
      exact canonical_canonicalize_fst _

theorem keys_cgamul_outer_canonical (bs : List (List Char × ScalarExpr)) :
    ∀ (as : List (List Char × ScalarExpr)) d, (∀ p ∈ d, Canonical p.1) →
    ∀ p ∈ as.foldl (fun d p1 => bs.foldl (fun d p2 =>
      addToItems SE0 (canonicalize (p1.1 ++ p2.1)).1
        ((p1.2.mul p2.2).smul (((canonicalize (p1.1 ++ p2.1)).2 : ℚ))) d) d) d,
      Canonical p.1 := by
  intro as
  induction as with
  | nil => intro d hd; exact hd
  | cons p1 rest ih =>
    intro d hd
    rw [List.foldl_cons]
    exact ih _ (keys_cgamul_inner_canonical p1.1 p1.2 bs d hd)

theorem mdenItems_cgamul_inner (l : List Char) (k1 : List Char) (c1 : ScalarExpr) :
    ∀ (bs : List (List Char × ScalarExpr)) d,
    mdenItems (bs.foldl (fun d p2 =>
      addToItems SE0 (canonicalize (k1 ++ p2.1)).1
        ((c1.mul p2.2).smul (((canonicalize (k1 ++ p2.1)).2 : ℚ))) d) d) l =
      mdenItems d l + (bs.map (fun p2 =>
        if (canonicalize (k1 ++ p2.1)).1 = l then
          constP (((canonicalize (k1 ++ p2.1)).2 : ℚ)) * (toPoly c1 * toPoly p2.2)
        else 0)).sum := by
  intro bs
  induction bs with
  | nil => intro d; simp
  | cons p2 rest ih =>
    intro d
    rw [List.foldl_cons, ih, mdenItems_addToItems, List.map_cons, List.sum_cons]
    have ht : toPoly ((c1.mul p2.2).smul (((canonicalize (k1 ++ p2.1)).2 : ℚ))) =
        constP (((canonicalize (k1 ++ p2.1)).2 : ℚ)) * (toPoly c1 * toPoly p2.2) := by
      rw [toPoly_smul, toPoly_mul]
      ring
    rw [ht]
    ring

theorem mdenItems_cgamul_outer (l : List Char) (bs : List (List Char × ScalarExpr)) :
    ∀ (as : List (List Char × ScalarExpr)) d,
    mdenItems (as.foldl (fun d p1 => bs.foldl (fun d p2 =>
      addToItems SE0 (canonicalize (p1.1 ++ p2.1)).1
        ((p1.2.mul p2.2).smul (((canonicalize (p1.1 ++ p2.1)).2 : ℚ))) d) d) d) l =
      mdenItems d l + (as.map (fun p1 => (bs.map (fun p2 =>
        if (canonicalize (p1.1 ++ p2.1)).1 = l then
          constP (((canonicalize (p1.1 ++ p2.1)).2 : ℚ)) * (toPoly p1.2 * toPoly p2.2)
        else 0)).sum)).sum := by
  intro as
  induction as with
  | nil => intro d; simp
  | cons p1 rest ih =>
    intro d
    rw [List.foldl_cons, ih, mdenItems_cgamul_inner l p1.1 p1.2 bs d,
      List.map_cons, List.sum_cons]
    ring

theorem mden_mul_items (A B : CgaExpr) (l : List Char) :
    mden (A.mul B) l =
      (A.terms.map (fun p1 => (B.terms.map (fun p2 =>
        if (canonicalize (p1.1 ++ p2.1)).1 = l then
          constP (((canonicalize (p1.1 ++ p2.1)).2 : ℚ)) * (toPoly p1.2 * toPoly p2.2)
        else 0)).sum)).sum := by
  have hkeys : ∀ p ∈ A.terms.foldl (fun d p1 => B.terms.foldl (fun d p2 =>
      addToItems SE0 (canonicalize (p1.1 ++ p2.1)).1
        ((p1.2.mul p2.2).smul (((canonicalize (p1.1 ++ p2.1)).2 : ℚ))) d) d) [],
      Canonical p.1 :=
    keys_cgamul_outer_canonical B.terms A.terms []
      (fun p hp => absurd hp (List.not_mem_nil p))
  show mden (CgaExpr.init _) l = _
  rw [mden_init_of_canonical hkeys l, mdenItems_cgamul_outer l B.terms A.terms []]
  simp [mdenItems]

theorem mden_mul_bmul (A B : CgaExpr) (hA : ∀ p ∈ A.terms, Canonical p.1)
    (hB : ∀ p ∈ B.terms, Canonical p.1) (l : List Char) :
    mden (A.mul B) l = bmul (mden A) (mden B) l := by
  rw [mden_mul_items]
  have hinner : ∀ p1 ∈ A.terms,
      (B.terms.map (fun p2 =>
        if (canonicalize (p1.1 ++ p2.1)).1 = l then
          constP (((canonicalize (p1.1 ++ p2.1)).2 : ℚ)) * (toPoly p1.2 * toPoly p2.2)
        else 0)).sum =
      ∑ l2 ∈ CLfin, (if (canonicalize (p1.1 ++ l2)).1 = l then
        constP (((canonicalize (p1.1 ++ l2)).2 : ℚ)) * (toPoly p1.2 * mdenItems B.terms l2)
      else 0) := by
    intro p1 _
    exact sum_group_CL
      (fun l2 y => if (canonicalize (p1.1 ++ l2)).1 = l then
        constP (((canonicalize (p1.1 ++ l2)).2 : ℚ)) * (toPoly p1.2 * y) else 0)
      (fun l2 => by
        dsimp only
        by_cases hc : (canonicalize (p1.1 ++ l2)).1 = l
        · rw [if_pos hc, mul_zero, mul_zero]
        · rw [if_neg hc])
      (fun l2 x y => by
        dsimp only
        by_cases hc : (canonicalize (p1.1 ++ l2)).1 = l
        · rw [if_pos hc, if_pos hc, if_pos hc]
          ring
        · rw [if_neg hc, if_neg hc, if_neg hc, add_zero])
      B.terms hB
  rw [List.map_congr_left hinner]
  have houter := sum_group_CL
    (fun l1 y => ∑ l2 ∈ CLfin, (if (canonicalize (l1 ++ l2)).1 = l then
      constP (((canonicalize (l1 ++ l2)).2 : ℚ)) * (y * mdenItems B.terms l2) else 0))
    (fun l1 => Finset.sum_eq_zero (fun l2 _ => by
      by_cases hc : (canonicalize (l1 ++ l2)).1 = l
      · rw [if_pos hc, zero_mul, mul_zero]
      · rw [if_neg hc]))
    (fun l1 x y => by
      dsimp only
      rw [← Finset.sum_add_distrib]
      refine Finset.sum_congr rfl (fun l2 _ => ?_)
      by_cases hc : (canonicalize (l1 ++ l2)).1 = l
      · rw [if_pos hc, if_pos hc, if_pos hc]
        ring
      · rw [if_neg hc, if_neg hc, if_neg hc, add_zero])
    A.terms hA
  rw [houter]
  rfl

/-! ### Associativity of the blade product -/

theorem ite_c_mul_sum_left {C : Prop} [Decidable C] (c y : PolyQ) {γ : Type}
    (S : Finset γ) (F : γ → PolyQ) :
    (if C then c * ((∑ x ∈ S, F x) * y) else 0) =
      ∑ x ∈ S, (if C then c * (F x * y) else 0) := by
  by_cases hC : C
  · rw [if_pos hC, Finset.sum_mul, Finset.mul_sum]
    exact Finset.sum_congr rfl (fun x _ => by rw [if_pos hC])
  · rw [if_neg hC]
    exact (Finset.sum_eq_zero (fun x _ => if_neg hC)).symm

theorem ite_c_mul_sum_right {C : Prop} [Decidable C] (c y : PolyQ) {γ : Type}
    (S : Finset γ) (F : γ → PolyQ) :
    (if C then c * (y * (∑ x ∈ S, F x)) else 0) =
      ∑ x ∈ S, (if C then c * (y * F x) else 0) := by
  by_cases hC : C
  · rw [if_pos hC, Finset.mul_sum, Finset.mul_sum]
    exact Finset.sum_congr rfl (fun x _ => by rw [if_pos hC])
  · rw [if_neg hC]
    exact (Finset.sum_eq_zero (fun x _ => if_neg hC)).symm

theorem ite_absorb_left {C D : Prop} [Decidable C] [Decidable D] (c c2 u y : PolyQ) :
    (if C then c * ((if D then c2 * u else 0) * y) else 0) =
      (if D then (if C then c * ((c2 * u) * y) else 0) else 0) := by
  by_cases hC : C <;> by_cases hD : D <;> simp [hC, hD]

theorem ite_absorb_right {C D : Prop} [Decidable C] [Decidable D] (c c2 u y : PolyQ) :
    (if C then c * (y * (if D then c2 * u else 0)) else 0) =
      (if D then (if C then c * (y * (c2 * u)) else 0) else 0) := by
  by_cases hC : C <;> by_cases hD : D <;> simp [hC, hD]

theorem sum3_rotate {γ : Type} (S : Finset γ) (K : γ → γ → γ → PolyQ) :
    (∑ a ∈ S, ∑ b ∈ S, ∑ c ∈ S, K a b c) =
      ∑ b ∈ S, ∑ c ∈ S, ∑ a ∈ S, K a b c := by
  rw [Finset.sum_comm]
  exact Finset.sum_congr rfl (fun b _ => Finset.sum_comm)

theorem sum4_rotate {γ : Type} (S : Finset γ) (K : γ → γ → γ → γ → PolyQ) :
    (∑ a ∈ S, ∑ b ∈ S, ∑ c ∈ S, ∑ d ∈ S, K a b c d) =
      ∑ b ∈ S, ∑ c ∈ S, ∑ d ∈ S, ∑ a ∈ S, K a b c d := by
  rw [Finset.sum_comm]
  refine Finset.sum_congr rfl (fun b _ => ?_)
  rw [Finset.sum_comm]
  exact Finset.sum_congr rfl (fun c _ => Finset.sum_comm)

theorem bmul_bmul_left (f g h : List Char → PolyQ) (l : List Char) :
    bmul (bmul f g) h l = bmul3 f g h l := by
  calc bmul (bmul f g) h l
      = ∑ l12 ∈ CLfin, ∑ l3 ∈ CLfin,
          if (canonicalize (l12 ++ l3)).1 = l then
            constP (((canonicalize (l12 ++ l3)).2 : ℚ)) *
              ((∑ l1 ∈ CLfin, ∑ l2 ∈ CLfin,
                if (canonicalize (l1 ++ l2)).1 = l12 then
                  constP (((canonicalize (l1 ++ l2)).2 : ℚ)) * (f l1 * g l2)
                else 0) * h l3)
          else 0 := rfl
    _ = ∑ l12 ∈ CLfin, ∑ l3 ∈ CLfin, ∑ l1 ∈ CLfin, ∑ l2 ∈ CLfin,
          (if (canonicalize (l1 ++ l2)).1 = l12 then
            (if (canonicalize (l12 ++ l3)).1 = l then
              constP (((canonicalize (l12 ++ l3)).2 : ℚ)) *
                ((constP (((canonicalize (l1 ++ l2)).2 : ℚ)) * (f l1 * g l2)) * h l3)
            else 0)
          else 0) := by
        refine Finset.sum_congr rfl (fun l12 _ => Finset.sum_congr rfl (fun l3 _ => ?_))
        rw [ite_c_mul_sum_left]
        refine Finset.sum_congr rfl (fun l1 _ => ?_)
        rw [ite_c_mul_sum_left]
        exact Finset.sum_congr rfl (fun l2 _ => ite_absorb_left _ _ _ _)
    _ = ∑ l3 ∈ CLfin, ∑ l1 ∈ CLfin, ∑ l2 ∈ CLfin, ∑ l12 ∈ CLfin,
          (if (canonicalize (l1 ++ l2)).1 = l12 then
            (if (canonicalize (l12 ++ l3)).1 = l then
              constP (((canonicalize (l12 ++ l3)).2 : ℚ)) *
                ((constP (((canonicalize (l1 ++ l2)).2 : ℚ)) * (f l1 * g l2)) * h l3)
            else 0)
          else 0) :=
        sum4_rotate CLfin (fun l12 l3 l1 l2 =>
          if (canonicalize (l1 ++ l2)).1 = l12 then
            (if (canonicalize (l12 ++ l3)).1 = l then
              constP (((canonicalize (l12 ++ l3)).2 : ℚ)) *
                ((constP (((canonicalize (l1 ++ l2)).2 : ℚ)) * (f l1 * g l2)) * h l3)
            else 0)
          else 0)
    _ = ∑ l3 ∈ CLfin, ∑ l1 ∈ CLfin, ∑ l2 ∈ CLfin,
          (if (canonicalize ((canonicalize (l1 ++ l2)).1 ++ l3)).1 = l then
            constP (((canonicalize ((canonicalize (l1 ++ l2)).1 ++ l3)).2 : ℚ)) *
              ((constP (((canonicalize (l1 ++ l2)).2 : ℚ)) * (f l1 * g l2)) * h l3)
          else 0) := by
        refine Finset.sum_congr rfl (fun l3 _ => Finset.sum_congr rfl (fun l1 _ =>
          Finset.sum_congr rfl (fun l2 _ => ?_)))
        exact (Finset.sum_eq_single_of_mem ((canonicalize (l1 ++ l2)).1)
          (mem_CLfin_of_canonical (canonical_canonicalize_fst _))
          (fun b _ hb => if_neg (fun heq => hb heq.symm))).trans (if_pos rfl)
    _ = ∑ l3 ∈ CLfin, ∑ l1 ∈ CLfin, ∑ l2 ∈ CLfin,
          (if (canonicalize (l1 ++ l2 ++ l3)).1 = l then
            constP (((canonicalize (l1 ++ l2 ++ l3)).2 : ℚ)) * (f l1 * (g l2 * h l3))
          else 0) := by
        refine Finset.sum_congr rfl (fun l3 hl3 => Finset.sum_congr rfl (fun l1 hl1 =>
          Finset.sum_congr rfl (fun l2 hl2 => ?_)))
        have hax1 : ∀ c ∈ l1, c ∈ AXES :=
          fun c hc => (Canonical.sublist (canonical_of_mem_CLfin hl1)).subset hc
        have hax2 : ∀ c ∈ l2, c ∈ AXES :=
          fun c hc => (Canonical.sublist (canonical_of_mem_CLfin hl2)).subset hc
        have hax3 : ∀ c ∈ l3, c ∈ AXES :=
          fun c hc => (Canonical.sublist (canonical_of_mem_CLfin hl3)).subset hc
        have hax12 : ∀ c ∈ l1 ++ l2, c ∈ AXES := by
          intro c hc
          rcases List.mem_append.1 hc with h1 | h2
          · exact hax1 c h1
          · exact hax2 c h2
        have hca := canon_append_left (l1 ++ l2) l3 hax12 hax3
        have hfst : (canonicalize (l1 ++ l2 ++ l3)).1 =
            (canonicalize ((canonicalize (l1 ++ l2)).1 ++ l3)).1 := by rw [hca]
        have hsnd2 : (canonicalize (l1 ++ l2 ++ l3)).2 =
            (canonicalize (l1 ++ l2)).2 *
              (canonicalize ((canonicalize (l1 ++ l2)).1 ++ l3)).2 := by rw [hca]
        have hsnd : ((canonicalize (l1 ++ l2 ++ l3)).2 : ℚ) =
            ((canonicalize (l1 ++ l2)).2 : ℚ) *
              ((canonicalize ((canonicalize (l1 ++ l2)).1 ++ l3)).2 : ℚ) := by
          rw [hsnd2, Int.cast_mul]
        by_cases hc : (canonicalize ((canonicalize (l1 ++ l2)).1 ++ l3)).1 = l
        · rw [if_pos hc, if_pos (hfst.trans hc), hsnd, ← constP_mul]
          ring
        · rw [if_neg hc, if_neg (fun hh => hc (hfst.symm.trans hh))]
    _ = bmul3 f g h l :=
        sum3_rotate CLfin (fun l3 l1 l2 =>
          if (canonicalize (l1 ++ l2 ++ l3)).1 = l then
            constP (((canonicalize (l1 ++ l2 ++ l3)).2 : ℚ)) * (f l1 * (g l2 * h l3))
          else 0)

theorem bmul_bmul_right (f g h : List Char → PolyQ) (l : List Char) :
    bmul f (bmul g h) l = bmul3 f g h l := by
  calc bmul f (bmul g h) l
      = ∑ l1 ∈ CLfin, ∑ l23 ∈ CLfin,
          if (canonicalize (l1 ++ l23)).1 = l then
            constP (((canonicalize (l1 ++ l23)).2 : ℚ)) *
              (f l1 * (∑ l2 ∈ CLfin, ∑ l3 ∈ CLfin,
                if (canonicalize (l2 ++ l3)).1 = l23 then
                  constP (((canonicalize (l2 ++ l3)).2 : ℚ)) * (g l2 * h l3)
                else 0))
          else 0 := rfl
    _ = ∑ l1 ∈ CLfin, ∑ l23 ∈ CLfin, ∑ l2 ∈ CLfin, ∑ l3 ∈ CLfin,
          (if (canonicalize (l2 ++ l3)).1 = l23 then
            (if (canonicalize (l1 ++ l23)).1 = l then
              constP (((canonicalize (l1 ++ l23)).2 : ℚ)) *
                (f l1 * (constP (((canonicalize (l2 ++ l3)).2 : ℚ)) * (g l2 * h l3)))
            else 0)
          else 0) := by
        refine Finset.sum_congr rfl (fun l1 _ => Finset.sum_congr rfl (fun l23 _ => ?_))
        rw [ite_c_mul_sum_right]
        refine Finset.sum_congr rfl (fun l2 _ => ?_)
        rw [ite_c_mul_sum_right]
        exact Finset.sum_congr rfl (fun l3 _ => ite_absorb_right _ _ _ _)
    _ = ∑ l1 ∈ CLfin, ∑ l2 ∈ CLfin, ∑ l3 ∈ CLfin, ∑ l23 ∈ CLfin,
          (if (canonicalize (l2 ++ l3)).1 = l23 then
            (if (canonicalize (l1 ++ l23)).1 = l then
              constP (((canonicalize (l1 ++ l23)).2 : ℚ)) *
                (f l1 * (constP (((canonicalize (l2 ++ l3)).2 : ℚ)) * (g l2 * h l3)))
            else 0)
          else 0) :=
        Finset.sum_congr rfl (fun l1 _ =>
          sum3_rotate CLfin (fun l23 l2 l3 =>
            if (canonicalize (l2 ++ l3)).1 = l23 then
              (if (canonicalize (l1 ++ l23)).1 = l then
                constP (((canonicalize (l1 ++ l23)).2 : ℚ)) *
                  (f l1 * (constP (((canonicalize (l2 ++ l3)).2 : ℚ)) * (g l2 * h l3)))
              else 0)
            else 0))
    _ = ∑ l1 ∈ CLfin, ∑ l2 ∈ CLfin, ∑ l3 ∈ CLfin,
          (if (canonicalize (l1 ++ (canonicalize (l2 ++ l3)).1)).1 = l then
            constP (((canonicalize (l1 ++ (canonicalize (l2 ++ l3)).1)).2 : ℚ)) *
              (f l1 * (constP (((canonicalize (l2 ++ l3)).2 : ℚ)) * (g l2 * h l3)))
          else 0) := by
        refine Finset.sum_congr rfl (fun l1 _ => Finset.sum_congr rfl (fun l2 _ =>
          Finset.sum_congr rfl (fun l3 _ => ?_)))
        exact (Finset.sum_eq_single_of_mem ((canonicalize (l2 ++ l3)).1)
          (mem_CLfin_of_canonical (canonical_canonicalize_fst _))
          (fun b _ hb => if_neg (fun heq => hb heq.symm))).trans (if_pos rfl)
    _ = ∑ l1 ∈ CLfin, ∑ l2 ∈ CLfin, ∑ l3 ∈ CLfin,
          (if (canonicalize (l1 ++ l2 ++ l3)).1 = l then
            constP (((canonicalize (l1 ++ l2 ++ l3)).2 : ℚ)) * (f l1 * (g l2 * h l3))
          else 0) := by
        refine Finset.sum_congr rfl (fun l1 hl1 => Finset.sum_congr rfl (fun l2 hl2 =>
          Finset.sum_congr rfl (fun l3 hl3 => ?_)))
        have hax1 : ∀ c ∈ l1, c ∈ AXES :=
          fun c hc => (Canonical.sublist (canonical_of_mem_CLfin hl1)).subset hc
        have hax2 : ∀ c ∈ l2, c ∈ AXES :=
          fun c hc => (Canonical.sublist (canonical_of_mem_CLfin hl2)).subset hc
        have hax3 : ∀ c ∈ l3, c ∈ AXES :=
          fun c hc => (Canonical.sublist (canonical_of_mem_CLfin hl3)).subset hc
        have hax23 : ∀ c ∈ l2 ++ l3, c ∈ AXES := by
          intro c hc
          rcases List.mem_append.1 hc with h1 | h2
          · exact hax2 c h1
          · exact hax3 c h2
        have hca := canon_append_right l1 (l2 ++ l3) hax1 hax23
        have hfst : (canonicalize (l1 ++ l2 ++ l3)).1 =
            (canonicalize (l1 ++ (canonicalize (l2 ++ l3)).1)).1 := by
          rw [List.append_assoc, hca]
        have hsnd2 : (canonicalize (l1 ++ l2 ++ l3)).2 =
            (canonicalize (l2 ++ l3)).2 *
              (canonicalize (l1 ++ (canonicalize (l2 ++ l3)).1)).2 := by
          rw [List.append_assoc, hca]
        have hsnd : ((canonicalize (l1 ++ l2 ++ l3)).2 : ℚ) =
            ((canonicalize (l2 ++ l3)).2 : ℚ) *
              ((canonicalize (l1 ++ (canonicalize (l2 ++ l3)).1)).2 : ℚ) := by
          rw [hsnd2, Int.cast_mul]
        by_cases hc : (canonicalize (l1 ++ (canonicalize (l2 ++ l3)).1)).1 = l
        · rw [if_pos hc, if_pos (hfst.trans hc), hsnd, ← constP_mul]
          ring
        · rw [if_neg hc, if_neg (fun hh => hc (hfst.symm.trans hh))]
    _ = bmul3 f g h l := rfl

theorem bmul_assoc (f g h : List Char → PolyQ) (l : List Char) :
    bmul (bmul f g) h l = bmul f (bmul g h) l :=
  (bmul_bmul_left f g h l).trans (bmul_bmul_right f g h l).symm

/-- **C4.** The geometric product on multivectors is associative: for all
multivectors `A`, `B`, `C` satisfying the data-model invariants (canonical
blade keys, nonzero polynomial coefficients), `(A*B)*C` equals `A*(B*C)`,
where equality means every blade label carries equal polynomial coefficients
(absent terms counting as zero). -/
theorem C4_geometric_product_associative (A B C : CgaExpr)
    (hA : CgaWF A) (hB : CgaWF B) (hC : CgaWF C) (l : List Char) :
    mden ((A.mul B).mul C) l = mden (A.mul (B.mul C)) l := by
  have hkA : ∀ p ∈ A.terms, Canonical p.1 := fun p hp => (hA p hp).1
  have hkB : ∀ p ∈ B.terms, Canonical p.1 := fun p hp => (hB p hp).1
  have hkC : ∀ p ∈ C.terms, Canonical p.1 := fun p hp => (hC p hp).1
  have hkAB : ∀ p ∈ (A.mul B).terms, Canonical p.1 := keys_init_canonical _
  have hkBC : ∀ p ∈ (B.mul C).terms, Canonical p.1 := keys_init_canonical _
  have h1 : mden (A.mul B) = bmul (mden A) (mden B) :=
    funext (mden_mul_bmul A B hkA hkB)
  have h2 : mden (B.mul C) = bmul (mden B) (mden C) :=
    funext (mden_mul_bmul B C hkB hkC)
  rw [mden_mul_bmul (A.mul B) C hkAB hkC l, h1,
    mden_mul_bmul A (B.mul C) hkA hkBC l, h2, bmul_assoc]

theorem C4_geometric_product_associative_witness :
    (CgaWF ⟨[(['x'], ⟨[([], 1)]⟩)]⟩ ∧ CgaWF ⟨[(['-'], ⟨[([], 1)]⟩)]⟩ ∧
      CgaWF ⟨[(['x', 'y'], ⟨[([], 1)]⟩)]⟩) ∧
    mden ((CgaExpr.mul (CgaExpr.mul ⟨[(['x'], ⟨[([], 1)]⟩)]⟩ ⟨[(['-'], ⟨[([], 1)]⟩)]⟩)
        ⟨[(['x', 'y'], ⟨[([], 1)]⟩)]⟩)) ['-', 'y'] =
      mden (CgaExpr.mul ⟨[(['x'], ⟨[([], 1)]⟩)]⟩ (CgaExpr.mul ⟨[(['-'], ⟨[([], 1)]⟩)]⟩
        ⟨[(['x', 'y'], ⟨[([], 1)]⟩)]⟩)) ['-', 'y'] :=
  ⟨⟨by decide, by decide, by decide⟩,
    C4_geometric_product_associative ⟨[(['x'], ⟨[([], 1)]⟩)]⟩ ⟨[(['-'], ⟨[([], 1)]⟩)]⟩
      ⟨[(['x', 'y'], ⟨[([], 1)]⟩)]⟩ (by decide) (by decide) (by decide) ['-', 'y']⟩

/-! ### Reversion -/

theorem cross_singleton_of_lt (a : Char) : ∀ s : List Char,
    (∀ x ∈ s, idxA a < idxA x) → cross s [a] = s.length := by
  intro s
  induction s with
  | nil => intro _; rfl
  | cons x s2 ih =>
    intro h
    have hx : idxA a < idxA x := h x (List.mem_cons_self x s2)
    have hs := ih (fun y hy => h y (List.mem_cons_of_mem x hy))
    rw [cross_cons, hs, List.length_cons]
    have h1 : [a].countP (fun y => decide (idxA y < idxA x)) = 1 := by
      simp [hx]
    omega

theorem two_mul_invCount_reverse : ∀ l : List Char,
    l.Pairwise (fun a b => idxA a < idxA b) →
    2 * invCount l.reverse = l.length * (l.length - 1) := by
  intro l
  induction l with
  | nil => intro _; rfl
  | cons a t ih =>
    intro hp
    have hp' := List.pairwise_cons.1 hp
    have ih' := ih hp'.2
    have hc : cross t.reverse [a] = t.length := by
      rw [cross_singleton_of_lt a t.reverse
        (fun x hx => hp'.1 x (List.mem_reverse.1 hx)), List.length_reverse]
    rw [List.reverse_cons, invCount_append, hc]
    have h0 : invCount [a] = 0 := rfl
    have hsq : (t.length + 1) * (t.length + 1 - 1) = t.length * (t.length - 1) +
        2 * t.length := by
      cases t.length with
      | zero => rfl
      | succ m =>
        simp only [Nat.add_sub_cancel, Nat.succ_sub_one]
        ring
    rw [h0, List.length_cons]
    omega

theorem canon_reverse {k : List Char} (h : Canonical k) :
    canonicalize k.reverse = (k, (-1 : ℤ) ^ (k.length * (k.length - 1) / 2)) := by
  have hax : ∀ c ∈ k.reverse, c ∈ AXES := fun c hc => h.2 c (List.mem_reverse.1 hc)
  have h2inv := two_mul_invCount_reverse k h.1
  refine Prod.ext ?_ ?_
  · show (canonicalize k.reverse).1 = k
    rw [canonicalize_fst]
    have hcong : AXES.filter (fun c => decide (k.reverse.count c % 2 = 1)) =
        AXES.filter (fun c => decide (k.count c % 2 = 1)) := by
      apply List.filter_congr
      intro c _
      rw [List.count_reverse]
    rw [hcong, ← canonicalize_fst, canon_of_canonical h]
  · show (canonicalize k.reverse).2 = (-1 : ℤ) ^ (k.length * (k.length - 1) / 2)
    rw [canonicalize_snd _ hax]
    have hdash : k.reverse.count '-' / 2 = 0 := by
      rw [List.count_reverse]
      have := canonical_count h '-'
      by_cases hm : '-' ∈ k
      · rw [if_pos hm] at this
        omega
      · rw [if_neg hm] at this
        omega
    have hinv : invCount k.reverse = k.length * (k.length - 1) / 2 := by omega
    rw [hdash, hinv, Nat.add_zero]

theorem sum_map_mul_constP (c : ℚ) (l : List Char) : ∀ its : List (List Char × ScalarExpr),
    (its.map (fun p => if p.1 = l then toPoly p.2 * constP c else 0)).sum =
      constP c * mdenItems its l := by
  intro its
  induction its with
  | nil => simp [mdenItems]
  | cons p rest ih =>
    rw [List.map_cons, List.sum_cons, ih, mdenItems_cons, mul_add]
    congr 1
    by_cases hp : p.1 = l
    · rw [if_pos hp, if_pos hp, mul_comm]
    · rw [if_neg hp, if_neg hp, mul_zero]

/-- **C5.** For every homogeneous multivector `A` of grade `g` (all stored keys
canonical of length `g`, coefficients nonzero), the reverse operation — which
stores each blade's axis-reversed label and re-canonicalizes it — yields `A`
scaled by `(-1)^(g(g-1)/2)`: each blade keeps its label and its coefficient is
multiplied by that sign. -/
theorem C5_reverse_is_grade_sign_scaling (A : CgaExpr) (g : Nat)
    (hA : ∀ p ∈ A.terms, Canonical p.1 ∧ p.1.length = g ∧ p.2.nonzero = true)
    (l : List Char) :
    mden A.rev l = constP (((-1 : ℤ) ^ (g * (g - 1) / 2) : ℚ)) * mden A l := by
  have hterm : ∀ p ∈ A.terms,
      ((fun p : List Char × ScalarExpr =>
        if (canonicalize p.1).1 = l then
          toPoly p.2 * constP (((canonicalize p.1).2 : ℚ)) else 0) ∘
       (fun p : List Char × ScalarExpr => (p.1.reverse, p.2))) p =
      (if p.1 = l then toPoly p.2 *
        constP (((-1 : ℤ) ^ (g * (g - 1) / 2) : ℚ)) else 0) := by
    intro p hp
    rcases hA p hp with ⟨hc, hg, _⟩
    simp only [Function.comp_apply]
    simp only [canon_reverse hc]
    rw [hg, Int.cast_pow]
  have hrev : mden A.rev l =
      mden (CgaExpr.init (A.terms.map (fun p => (p.1.reverse, p.2)))) l := rfl
  rw [hrev, mden_init, List.map_map, List.map_congr_left hterm, sum_map_mul_constP]
  rfl

theorem C5_reverse_is_grade_sign_scaling_witness :
    (∀ p ∈ (⟨[(['x', 'y'], ⟨[([], 1)]⟩)]⟩ : CgaExpr).terms,
      Canonical p.1 ∧ p.1.length = 2 ∧ p.2.nonzero = true) ∧
    mden (CgaExpr.rev ⟨[(['x', 'y'], ⟨[([], 1)]⟩)]⟩) ['x', 'y'] =
      constP (((-1 : ℤ) ^ (2 * (2 - 1) / 2) : ℚ)) *
        mden ⟨[(['x', 'y'], ⟨[([], 1)]⟩)]⟩ ['x', 'y'] :=
  ⟨by decide,
    C5_reverse_is_grade_sign_scaling ⟨[(['x', 'y'], ⟨[([], 1)]⟩)]⟩ 2 (by decide) ['x', 'y']⟩

/-! ### Scalar part, additive denotation lemmas -/

theorem constP_add (a b : ℚ) : constP (a + b) = constP a + constP b :=
  AddMonoidAlgebra.single_add 0 a b

theorem mdenItems_not_mem (l : List Char) : ∀ its : List (List Char × ScalarExpr),
    l ∉ its.map Prod.fst → mdenItems its l = 0 := by
  intro its
  induction its with
  | nil => intro _; rfl
  | cons p rest ih =>
    intro h
    rw [List.map_cons] at h
    have h1 : ¬ (p.1 = l) := fun he => h (by rw [← he]; exact List.mem_cons_self p.1 _)
    have h2 : l ∉ rest.map Prod.fst := fun hm => h (List.mem_cons_of_mem _ hm)
    rw [mdenItems_cons, ih h2, add_zero, if_neg h1]

theorem getDflt_cons_pos {κ α : Type} [DecidableEq κ] (p : κ × α) (rest : List (κ × α))
    (k : κ) (dflt : α) (h : p.1 = k) : getDflt (p :: rest) k dflt = p.2 := by
  simp [getDflt, lookupVal, List.find?_cons, h]

theorem getDflt_cons_neg {κ α : Type} [DecidableEq κ] (p : κ × α) (rest : List (κ × α))
    (k : κ) (dflt : α) (h : ¬ (p.1 = k)) :
    getDflt (p :: rest) k dflt = getDflt rest k dflt := by
  simp [getDflt, lookupVal, List.find?_cons, h]

theorem toPoly_getDflt (l : List Char) : ∀ its : List (List Char × ScalarExpr),
    (its.map Prod.fst).Nodup →
    toPoly (getDflt its l SE0) = mdenItems its l := by
  intro its
  induction its with
  | nil => intro _; rfl
  | cons p rest ih =>
    intro hnd
    rw [List.map_cons, List.nodup_cons] at hnd
    rw [mdenItems_cons]
    by_cases h : p.1 = l
    · rw [if_pos h, mdenItems_not_mem l rest (h ▸ hnd.1), add_zero,
        getDflt_cons_pos p rest l SE0 h]
    · rw [if_neg h, zero_add, getDflt_cons_neg p rest l SE0 h, ih hnd.2]

theorem keys_init_nodup (ts : List (List Char × ScalarExpr)) :
    ((CgaExpr.init ts).terms.map Prod.fst).Nodup := by
  suffices h : ∀ d : List (List Char × ScalarExpr), (d.map Prod.fst).Nodup →
      ((ts.foldl (fun d p =>
        if p.2.nonzero then
          addToItems SE0 (canonicalize p.1).1 (p.2.smul (((canonicalize p.1).2 : ℚ))) d
        else d) d).map Prod.fst).Nodup by
    exact h [] List.nodup_nil
  induction ts with
  | nil => intro d hd; exact hd
  | cons q rest ih =>
    intro d hd
    rw [List.foldl_cons]
    apply ih
    by_cases hnz : q.2.nonzero
    · rw [if_pos hnz, keys_addToItems]
      by_cases hk : (canonicalize q.1).1 ∈ d.map Prod.fst
      · rw [if_pos hk]; exact hd
      · rw [if_neg hk]
        refine List.Nodup.append hd (List.nodup_singleton _) ?_
        intro a ha hb
        rw [List.mem_singleton] at hb
        exact hk (hb ▸ ha)
    · rw [if_neg hnz]; exact hd

theorem keys_accumulate_canonical : ∀ (bs d : List (List Char × ScalarExpr)),
    (∀ p ∈ d, Canonical p.1) → (∀ p ∈ bs, Canonical p.1) →
    ∀ p ∈ bs.foldl (fun d p => addToItems SE0 p.1 p.2 d) d, Canonical p.1 := by
  intro bs
  induction bs with
  | nil => intro d hd _; exact hd
  | cons q rest ih =>
    intro d hd hbs
    rw [List.foldl_cons]
    refine ih _ ?_ (fun p hp => hbs p (List.mem_cons_of_mem q hp))
    intro p hp
    rcases mem_addToItems_keys _ _ _ _ hp with h | h
    · rcases List.mem_map.1 h with ⟨r, hr, hfst⟩
      exact hfst ▸ hd r hr
    · rw [h]
      exact hbs q (List.mem_cons_self q rest)

theorem mden_add (A B : CgaExpr) (hA : ∀ p ∈ A.terms, Canonical p.1)
    (hB : ∀ p ∈ B.terms, Canonical p.1) (l : List Char) :
    mden (A.add B) l = mden A l + mden B l := by
  have hkeys := keys_accumulate_canonical B.terms A.terms hA hB
  have h1 : mden (A.add B) l = mden (CgaExpr.init (B.terms.foldl
      (fun d p => addToItems SE0 p.1 p.2 d) A.terms)) l := rfl
  rw [h1, mden_init_of_canonical hkeys l, mdenItems_accumulate]
  rfl

theorem mdenItems_map_modify (F : ScalarExpr → ScalarExpr) (Y : PolyQ)
    (hF : ∀ s, toPoly (F s) = toPoly s * Y) (l : List Char) :
    ∀ its : List (List Char × ScalarExpr),
    mdenItems (its.map (fun p => (p.1, F p.2))) l = mdenItems its l * Y := by
  intro its
  induction its with
  | nil =>
    rw [List.map_nil]
    show (0 : PolyQ) = 0 * Y
    rw [zero_mul]
  | cons p rest ih =>
    rw [List.map_cons, mdenItems_cons, mdenItems_cons, ih, add_mul]
    dsimp only
    by_cases hl : p.1 = l
    · rw [if_pos hl, if_pos hl, hF]
    · rw [if_neg hl, if_neg hl, zero_mul]

theorem mden_smulRat (A : CgaExpr) (q : ℚ) (hA : ∀ p ∈ A.terms, Canonical p.1)
    (l : List Char) :
    mden (A.smulRat q) l = mden A l * constP q := by
  have hkeys : ∀ p ∈ A.terms.map (fun p => (p.1, p.2.smul q)), Canonical p.1 := by
    intro p hp
    rcases List.mem_map.1 hp with ⟨r, hr, hfst⟩
    have h1 : p.1 = r.1 := by rw [← hfst]
    rw [h1]
    exact hA r hr
  have h1 : mden (A.smulRat q) l =
      mden (CgaExpr.init (A.terms.map (fun p => (p.1, p.2.smul q)))) l := rfl
  rw [h1, mden_init_of_canonical hkeys l]
  exact mdenItems_map_modify (fun s => s.smul q) (constP q) (fun s => toPoly_smul s q) l A.terms

theorem mden_smulScalar (A : CgaExpr) (s : ScalarExpr) (hA : ∀ p ∈ A.terms, Canonical p.1)
    (l : List Char) :
    mden (A.smulScalar s) l = mden A l * toPoly s := by
  have hkeys : ∀ p ∈ A.terms.map (fun p => (p.1, p.2.mul s)), Canonical p.1 := by
    intro p hp
    rcases List.mem_map.1 hp with ⟨r, hr, hfst⟩
    have h1 : p.1 = r.1 := by rw [← hfst]
    rw [h1]
    exact hA r hr
  have h1 : mden (A.smulScalar s) l =
      mden (CgaExpr.init (A.terms.map (fun p => (p.1, p.2.mul s)))) l := rfl
  rw [h1, mden_init_of_canonical hkeys l]
  exact mdenItems_map_modify (fun c => c.mul s) (toPoly s) (fun c => toPoly_mul c s) l A.terms

theorem mden_NI (l : List Char) : mden NI l =
    (if ['-'] = l then 1 else 0) + (if ['+'] = l then 1 else 0) := by
  have h0 : mden NI l =
      mden (CgaExpr.init [(['-'], .ofNum 1), (['+'], .ofNum 1)]) l := rfl
  rw [h0, mden_init, List.map_cons, List.map_cons, List.map_nil, List.sum_cons,
    List.sum_cons, List.sum_nil, add_zero]
  dsimp only
  rw [show canonicalize ['-'] = (['-'], 1) from by decide,
    show canonicalize ['+'] = (['+'], 1) from by decide]
  dsimp only
  simp only [toPoly_ofNum, Int.cast_one, constP_one, mul_one]

theorem mden_NO (l : List Char) : mden NO l =
    ((if ['-'] = l then 1 else 0) + (if ['+'] = l then -1 else 0)) * constP (1/2) := by
  have h0 : mden NO l =
      mden ((CgaExpr.init [(['-'], .ofNum 1), (['+'], .ofNum (-1))]).smulRat (1/2)) l := rfl
  rw [h0, mden_smulRat _ _ (keys_init_canonical _) l, mden_init, List.map_cons,
    List.map_cons, List.map_nil, List.sum_cons, List.sum_cons, List.sum_nil, add_zero]
  dsimp only
  rw [show canonicalize ['-'] = (['-'], 1) from by decide,
    show canonicalize ['+'] = (['+'], 1) from by decide]
  dsimp only
  simp only [toPoly_ofNum, Int.cast_one, constP_one, mul_one, constP_neg]

theorem mden_xblade (x : ScalarExpr) (l : List Char) :
    mden (CgaExpr.init [(['x'], x)]) l = if ['x'] = l then toPoly x else 0 := by
  rw [mden_init, List.map_cons, List.map_nil, List.sum_cons, List.sum_nil, add_zero]
  dsimp only
  rw [show canonicalize ['x'] = (['x'], 1) from by decide]
  dsimp only
  simp only [Int.cast_one, constP_one, mul_one]

theorem mden_point_at (x : ScalarExpr) (l : List Char) :
    mden (point_at x) l =
      ((if ['-'] = l then 1 else 0) + (if ['+'] = l then -1 else 0)) * constP (1/2)
      + (if ['x'] = l then toPoly x else 0)
      + ((if ['-'] = l then 1 else 0) + (if ['+'] = l then 1 else 0)) * constP (1/2)
          * (toPoly x * toPoly x) := by
  have h0 : mden (point_at x) l = mden ((NO.add (CgaExpr.init [(['x'], x)])).add
      ((NI.smulRat (1/2)).smulScalar (x.mul x))) l := rfl
  have hkNO : ∀ p ∈ NO.terms, Canonical p.1 :=
    keys_init_canonical ((CgaExpr.init [(['-'], ScalarExpr.ofNum 1),
      (['+'], ScalarExpr.ofNum (-1))]).terms.map
        (fun p : List Char × ScalarExpr => (p.1, p.2.smul (1/2))))
  have hkX : ∀ p ∈ (CgaExpr.init [(['x'], x)]).terms, Canonical p.1 :=
    keys_init_canonical _
  have hkNOX : ∀ p ∈ (NO.add (CgaExpr.init [(['x'], x)])).terms, Canonical p.1 :=
    keys_init_canonical _
  have hkNI : ∀ p ∈ NI.terms, Canonical p.1 :=
    keys_init_canonical [(['-'], ScalarExpr.ofNum 1), (['+'], ScalarExpr.ofNum 1)]
  have hkNIh : ∀ p ∈ (NI.smulRat (1/2)).terms, Canonical p.1 :=
    keys_init_canonical (NI.terms.map
      (fun p : List Char × ScalarExpr => (p.1, p.2.smul (1/2))))
  have hkNIs : ∀ p ∈ ((NI.smulRat (1/2)).smulScalar (x.mul x)).terms, Canonical p.1 :=
    keys_init_canonical ((NI.smulRat (1/2)).terms.map
      (fun p : List Char × ScalarExpr => (p.1, p.2.mul (x.mul x))))
  rw [h0, mden_add _ _ hkNOX hkNIs l, mden_add _ _ hkNO hkX l,
    mden_smulScalar _ _ hkNIh l, mden_smulRat _ _ hkNI l, mden_NO, mden_xblade,
    mden_NI, toPoly_mul]

/-- **C6.** For every polynomial `x`, the scalar part (coefficient of the
empty blade label, taken as the zero polynomial when absent) of the geometric
product `point_at(x) * point_at(x)` is the zero polynomial: the conformal
point construction `NO + x*e_x + 0.5*x^2*NI` is a null vector. -/
theorem C6_point_at_squared_scalar_zero (x : ScalarExpr) :
    toPoly (((point_at x).mul (point_at x)).s) = 0 := by
  have hk : ∀ p ∈ (point_at x).terms, Canonical p.1 := keys_init_canonical _
  have hnd : ((((point_at x).mul (point_at x)).terms).map Prod.fst).Nodup :=
    keys_init_nodup _
  have hs : toPoly (((point_at x).mul (point_at x)).s) =
      mdenItems ((point_at x).mul (point_at x)).terms [] :=
    toPoly_getDflt [] _ hnd
  have hmul : mdenItems ((point_at x).mul (point_at x)).terms [] =
      bmul (mden (point_at x)) (mden (point_at x)) [] := mden_mul_bmul _ _ hk hk []
  rw [hs, hmul]
  have hPm : mden (point_at x) ['-'] =
      constP (1/2) + constP (1/2) * (toPoly x * toPoly x) := by
    rw [mden_point_at]
    simp +decide
  have hPp : mden (point_at x) ['+'] =
      -constP (1/2) + constP (1/2) * (toPoly x * toPoly x) := by
    rw [mden_point_at]
    simp +decide
  have hPx : mden (point_at x) ['x'] = toPoly x := by
    rw [mden_point_at]
    simp +decide
  have hzero : ∀ l ∈ CLfin, l ∉ ({['-'], ['+'], ['x']} : Finset (List Char)) →
      mden (point_at x) l = 0 := by
    intro l _ hl
    simp only [Finset.mem_insert, Finset.mem_singleton] at hl
    push_neg at hl
    have hm : ¬ ((['-'] : List Char) = l) := fun h => hl.1 h.symm
    have hp : ¬ ((['+'] : List Char) = l) := fun h => hl.2.1 h.symm
    have hx : ¬ ((['x'] : List Char) = l) := fun h => hl.2.2 h.symm
    rw [mden_point_at, if_neg hm, if_neg hp, if_neg hx, if_neg hp]
    ring
  have hTsub : ({['-'], ['+'], ['x']} : Finset (List Char)) ⊆ CLfin := by
    intro a ha
    simp only [Finset.mem_insert, Finset.mem_singleton] at ha
    rcases ha with h | h | h <;> (rw [h]; exact mem_CLfin_of_canonical (by decide))
  have houter : ∀ l1 ∈ CLfin, l1 ∉ ({['-'], ['+'], ['x']} : Finset (List Char)) →
      (∑ l2 ∈ CLfin, if (canonicalize (l1 ++ l2)).1 = [] then
        constP (((canonicalize (l1 ++ l2)).2 : ℚ)) *
          (mden (point_at x) l1 * mden (point_at x) l2) else 0) = 0 := by
    intro l1 h1 h2
    refine Finset.sum_eq_zero (fun l2 _ => ?_)
    rw [hzero l1 h1 h2, zero_mul, mul_zero, ite_self]
  have hinner : ∀ l1, ∀ l2 ∈ CLfin, l2 ∉ ({['-'], ['+'], ['x']} : Finset (List Char)) →
      (if (canonicalize (l1 ++ l2)).1 = [] then
        constP (((canonicalize (l1 ++ l2)).2 : ℚ)) *
          (mden (point_at x) l1 * mden (point_at x) l2) else 0) = 0 := by
    intro l1 l2 h1 h2
    rw [hzero l2 h1 h2, mul_zero, mul_zero, ite_self]
  have hexp : bmul (mden (point_at x)) (mden (point_at x)) [] =
      ∑ l1 ∈ CLfin, ∑ l2 ∈ CLfin,
        if (canonicalize (l1 ++ l2)).1 = [] then
          constP (((canonicalize (l1 ++ l2)).2 : ℚ)) *
            (mden (point_at x) l1 * mden (point_at x) l2) else 0 := rfl
  rw [hexp, ← Finset.sum_subset hTsub houter]
  have hrestr : ∀ l1 ∈ ({['-'], ['+'], ['x']} : Finset (List Char)),
      (∑ l2 ∈ CLfin, if (canonicalize (l1 ++ l2)).1 = [] then
        constP (((canonicalize (l1 ++ l2)).2 : ℚ)) *
          (mden (point_at x) l1 * mden (point_at x) l2) else 0) =
      ∑ l2 ∈ ({['-'], ['+'], ['x']} : Finset (List Char)),
        if (canonicalize (l1 ++ l2)).1 = [] then
          constP (((canonicalize (l1 ++ l2)).2 : ℚ)) *
            (mden (point_at x) l1 * mden (point_at x) l2) else 0 :=
    fun l1 _ => (Finset.sum_subset hTsub (hinner l1)).symm
  rw [Finset.sum_congr rfl hrestr]
  simp +decide [Finset.sum_insert, Finset.sum_singleton,
    show canonicalize ['-', '-'] = ([], -1) from by decide,
    show canonicalize ['-', '+'] = (['-', '+'], 1) from by decide,
    show canonicalize ['-', 'x'] = (['-', 'x'], 1) from by decide,
    show canonicalize ['+', '-'] = (['-', '+'], -1) from by decide,
    show canonicalize ['+', '+'] = ([], 1) from by decide,
    show canonicalize ['+', 'x'] = (['+', 'x'], 1) from by decide,
    show canonicalize ['x', '-'] = (['-', 'x'], -1) from by decide,
    show canonicalize ['x', '+'] = (['+', 'x'], -1) from by decide,
    show canonicalize ['x', 'x'] = ([], 1) from by decide,
    show constP (1/2 : ℚ) = constP (2⁻¹ : ℚ) from by norm_num,
    hPm, hPp, hPx, constP_neg, constP_one]
  have h4 : (4 : PolyQ) = constP 4 := by
    rw [show (4 : ℚ) = 1 + 1 + 1 + 1 from by norm_num, constP_add, constP_add,
      constP_add, constP_one]
    norm_num
  have hone : constP (2⁻¹ : ℚ) * constP (2⁻¹ : ℚ) * (4 : PolyQ) = 1 := by
    rw [h4, constP_mul, constP_mul]
    norm_num [constP_one]
  linear_combination (-(toPoly x * toPoly x)) * hone

/-- **C3.** The claim says that rendering a multivector to text (and computing
any derived display coefficient) leaves its stored term mapping exactly as it
was — the same set of keys with the same coefficients before and after.  This
is REFUTED: every `self.terms[...]` read in `get_human_term` goes through
`defaultdict.__getitem__`, which inserts a zero polynomial at a missing key,
so computing a display coefficient grows the stored key set.  Concretely, for
the term dict with the single entry `x ↦ 1`, `get_human_term` on the display
axes `oy` reads the missing keys `-y` and `+y` and leaves a three-entry dict
behind — for any formatting of numeric coefficients. -/
theorem C3_rendering_mutates_term_mapping :
    ∀ showNum : ℚ → String,
      (get_human_term showNum [(['x'], ⟨[([], 1)]⟩)] ['o', 'y']).2.map Prod.fst ≠
        [(['x'], (⟨[([], 1)]⟩ : ScalarExpr))].map Prod.fst := by
  intro showNum
  have h : (get_human_term showNum [(['x'], ⟨[([], 1)]⟩)] ['o', 'y']).2.map Prod.fst =
      (get_human_term (fun _ => "") [(['x'], ⟨[([], 1)]⟩)] ['o', 'y']).2.map Prod.fst := rfl
  rw [h]
  decide
